import Mathlib

/-!
Verification of the core algorithms of the
InteractiveTemporalScalarFieldGenerator repository:
the umbrella union-find clusterer (`src/umbrella_tracker.py`),
birth/merge event detection from the correspondence matrix,
the per-tick tracking update and its caller, the field synthesizer and
its distribution kernels (`src/gaussian_scene.py`), path-driven
advection, and noise range restoration (`src/noises.py`).

Python floats are modelled as real numbers, Python lists as `List`,
Python dicts (which preserve key insertion order) as ordered
association lists, raised exceptions as `Except`, and `None` returns
as `Option.none`.  Randomized quantities (`random.uniform`, the noise
transforms) are modelled as explicit parameters.
-/

/-! ## Generic list min/max helpers (numpy `field.min()` / `field.max()`) -/

/-- `numpy`-style minimum of a list, defaulting to `0` on the empty list
(the code only applies it to non-empty fields). -/
noncomputable def listMinD (l : List ℝ) : ℝ := l.foldl min (l.headD 0)

/-- `numpy`-style maximum of a list, defaulting to `0` on the empty list. -/
noncomputable def listMaxD (l : List ℝ) : ℝ := l.foldl max (l.headD 0)

/-- `np.clip(v, lo, hi)`. -/
noncomputable def npClip (v lo hi : ℝ) : ℝ := min (max v lo) hi

/-! ## Data model of the umbrella clusterer (`src/umbrella_tracker.py`)

`umbrella_clusters_with_roots` reads, for each Gaussian dict, the keys
`id`, `x`, `y`, `amp`, `var` (the shape produced by `gcopy` in
`update_umbrella_tracking`). -/

/-- The per-source record consumed by the umbrella clusterer. -/
structure GaussDyn where
  id : Int
  x : ℝ
  y : ℝ
  amp : ℝ
  var : ℝ

instance : Inhabited GaussDyn := ⟨⟨0, 0, 0, 0, 0⟩⟩

/-- The umbrella merge criterion of `umbrella_clusters_with_roots`
(lines 54-58): `amps[i] <= amps[j] * exp(-dist2 / (2.0 * vars[j]))`. -/
def umbrellaDominates (gs : List GaussDyn) (i j : Nat) : Prop :=
  let xs := gs.map (·.x)
  let ys := gs.map (·.y)
  let amps := gs.map (·.amp)
  let vars := gs.map (·.var)
  let dx := xs.getD i 0 - xs.getD j 0
  let dy := ys.getD i 0 - ys.getD j 0
  let dist2 := dx * dx + dy * dy
  amps.getD i 0 ≤ amps.getD j 0 * Real.exp (-dist2 / (2.0 * vars.getD j 0))

/-! ### Union-find with path halving

The Python code keeps `parent = list(range(n))` and runs
`find` (a `while` loop with the path-halving write
`parent[i] = parent[parent[i]]`) and `union` (`parent[ri] = rj`).
The unbounded `while` loop is embedded with an explicit fuel argument;
every call site passes `parent.length` fuel, which is proved sufficient
for parent arrays reachable by the algorithm (`find_spec`). -/

/-- One parent-pointer lookup `parent[i]` (out-of-range reads, which the
algorithm never performs on well-formed states, return `i`). -/
def pstep (p : List Nat) (i : Nat) : Nat := p.getD i i

/-- `parent[i] == i`. -/
def isRootP (p : List Nat) (i : Nat) : Prop := pstep p i = i

instance (p : List Nat) (i : Nat) : Decidable (isRootP p i) := by
  unfold isRootP; infer_instance

/-- `k`-fold iteration of the parent pointer. -/
def iterP (p : List Nat) : Nat → Nat → Nat
  | 0, i => i
  | k + 1, i => iterP p k (pstep p i)

/-- The root above `i`, computed by pure iteration with fuel. -/
def rootFuel (p : List Nat) : Nat → Nat → Nat
  | 0, i => i
  | f + 1, i => if pstep p i = i then i else rootFuel p f (pstep p i)

/-- Canonical root of `i`: enough fuel for any well-formed parent list. -/
def rootD (p : List Nat) (i : Nat) : Nat := rootFuel p p.length i

/-- `find(i)` with path halving, returning the updated parent list and
the root, as in lines 38-42 of `umbrella_tracker.py`. -/
def find : Nat → List Nat → Nat → List Nat × Nat
  | 0, p, i => (p, i)
  | f + 1, p, i =>
    let pi := pstep p i
    if pi = i then (p, i)
    else
      let gpi := pstep p pi
      find f (p.set i gpi) gpi

/-- `union(i, j)`: link the root of `i` under the root of `j`
(lines 44-47 of `umbrella_tracker.py`). -/
def union (p : List Nat) (i j : Nat) : List Nat :=
  let fi := find p.length p i
  let fj := find fi.1.length fi.1 j
  if fi.2 ≠ fj.2 then fj.1.set fi.2 fj.2 else fj.1

/-- Body of the doubly nested umbrella-merge loop (lines 50-59):
skip the diagonal, test the dominance criterion `dom i j`, and union. -/
def pairStep (dom : Nat → Nat → Bool) (p : List Nat) (i j : Nat) : List Nat :=
  if i = j then p else if dom i j then union p i j else p

/-- The full `for i in range(n): for j in range(n):` merge loop. -/
def unionLoop (dom : Nat → Nat → Bool) (n : Nat) (p : List Nat) : List Nat :=
  (List.range n).foldl
    (fun p i => (List.range n).foldl (fun p j => pairStep dom p i j) p) p

/-- `clusters.setdefault(k, []).append(v)` on an insertion-ordered dict. -/
def dictAppend (d : List (Int × List Int)) (k : Int) (v : Int) :
    List (Int × List Int) :=
  match d with
  | [] => [(k, [v])]
  | (k', vs) :: rest =>
    if k' = k then (k', vs ++ [v]) :: rest else (k', vs) :: dictAppend rest k v

/-- One step of the grouping loop (lines 62-65): find the root of `idx`
(threading the path-compressed parent list) and append `ids[idx]` to the
cluster keyed by the Gaussian id of the root. -/
def groupStep (ids : List Int) (st : List Nat × List (Int × List Int))
    (idx : Nat) : List Nat × List (Int × List Int) :=
  let f := find st.1.length st.1 idx
  (f.1, dictAppend st.2 (ids.getD f.2 0) (ids.getD idx 0))

/-- The Boolean dominance test of line 58, `amps[i] <= rhs`, as a
(classically decided) function of the two indices. -/
noncomputable def umbrellaDom (gs : List GaussDyn) : Nat → Nat → Bool :=
  fun i j => @decide (umbrellaDominates gs i j) (Classical.propDecidable _)

/-- `umbrella_clusters_with_roots(gaussians)` (lines 19-67): umbrella
clustering by union-find over the dominance criterion, returning the
insertion-ordered dict `{root_gaussian_id: [gaussian_ids]}` together
with `list(clusters.values())`.  The float comparison on line 58 is
modelled by the real-valued proposition `umbrellaDominates`. -/
noncomputable def umbrella_clusters_with_roots (gs : List GaussDyn) :
    List (Int × List Int) × List (List Int) :=
  let n := gs.length
  if n = 0 then ([], [])
  else
    let ids := gs.map (·.id)
    let parent := unionLoop (umbrellaDom gs) n (List.range n)
    let grouped := (List.range n).foldl (groupStep ids) (parent, [])
    (grouped.2, grouped.2.map (·.2))

/-- Two ids are in the same cluster of an output dict. -/
def sameCluster (d : List (Int × List Int)) (a b : Int) : Prop :=
  ∃ km ∈ d, a ∈ km.2 ∧ b ∈ km.2

/-- Reflexive-symmetric-transitive closure of a relation: the
equivalence generated by the union edges. -/
inductive CRel (E : Nat → Nat → Prop) : Nat → Nat → Prop
  | base {x y : Nat} : E x y → CRel E x y
  | refl (x : Nat) : CRel E x x
  | symm {x y : Nat} : CRel E x y → CRel E y x
  | trans {x y z : Nat} : CRel E x y → CRel E y z → CRel E x z

/-- The edges the merge loop actually unions: ordered pairs of distinct
in-range indices satisfying the umbrella dominance criterion. -/
def umbrellaEdge (gs : List GaussDyn) (i j : Nat) : Prop :=
  i < gs.length ∧ j < gs.length ∧ i ≠ j ∧ umbrellaDominates gs i j

/-! ### Pure facts about parent-pointer iteration -/

/-- Well-formed parent list: in-range pointers and every node reaches a
root.  All parent lists produced by the clustering algorithm satisfy
this. -/
def UFok (p : List Nat) : Prop :=
  (∀ i, i < p.length → pstep p i < p.length) ∧
  (∀ i, i < p.length → ∃ k, isRootP p (iterP p k i))

/-- `m` is the exact distance from `i` to its root. -/
def MinDepth (p : List Nat) (i m : Nat) : Prop :=
  isRootP p (iterP p m i) ∧ ∀ k, k < m → ¬ isRootP p (iterP p k i)

/-! ### Effect of a single parent-array write -/

/-! ### The nested merge loop as a fold over the list of ordered pairs -/

/-- The union edges contributed by a list of visited index pairs. -/
def ERel (dom : Nat → Nat → Bool) (L : List (Nat × Nat)) (x y : Nat) : Prop :=
  (x, y) ∈ L ∧ x ≠ y ∧ dom x y = true

/-- Folding `pairStep` over an explicit list of index pairs. -/
def pairFold (dom : Nat → Nat → Bool) (p : List Nat)
    (L : List (Nat × Nat)) : List Nat :=
  L.foldl (fun p e => pairStep dom p e.1 e.2) p

/-- All ordered pairs `(i, j)` with `i, j < n`, in loop order. -/
def allPairs (n : Nat) : List (Nat × Nat) :=
  (List.range n).flatMap (fun i => (List.range n).map (fun j => (i, j)))

/-- Invariant carried through the merge loop: the parent list is
well-formed of length `n` and its root partition is exactly the
equivalence generated by the union edges seen so far. -/
def LoopInv (dom : Nat → Nat → Bool) (n : Nat) (p : List Nat)
    (L : List (Nat × Nat)) : Prop :=
  UFok p ∧ p.length = n ∧ (∀ e ∈ L, e.1 < n ∧ e.2 < n) ∧
  ∀ x y, x < n → y < n → (rootD p x = rootD p y ↔ CRel (ERel dom L) x y)

/-! ### The grouping loop: insertion-ordered dict of clusters -/

/-- First-match association lookup (Python dict lookup). -/
def dlookup (d : List (Int × List Int)) (k : Int) : Option (List Int) :=
  match d with
  | [] => none
  | (k', vs) :: rest => if k' = k then some vs else dlookup rest k

/-- Keys of the dict, in insertion order. -/
def dkeys (d : List (Int × List Int)) : List Int := d.map (·.1)

/-- Pure left fold of `setdefault`-append over a key/value list. -/
def buildDict (kvs : List (Int × Int)) : List (Int × List Int) :=
  kvs.foldl (fun d kv => dictAppend d kv.1 kv.2) []

/-- All values associated with key `k`, in order. -/
def bucket (kvs : List (Int × Int)) (k : Int) : List Int :=
  (kvs.filter (fun kv => kv.1 == k)).map (·.2)

/-! ### Characterization of the clusterer output -/

/-- The Gaussian id stored at index `i` (`ids[i]`). -/
def idAt (gs : List GaussDyn) (i : Nat) : Int := (gs.map (·.id)).getD i 0

/-- The parent list after the full merge loop. -/
noncomputable def umbrellaParent (gs : List GaussDyn) : List Nat :=
  unionLoop (umbrellaDom gs) gs.length (List.range gs.length)

/-- The key/value pairs inserted by the grouping loop, in order. -/
noncomputable def clusterKVs (gs : List GaussDyn) : List (Int × Int) :=
  (List.range gs.length).map
    (fun idx => (idAt gs (rootD (umbrellaParent gs) idx), idAt gs idx))

/-- Two coincident sources with amplitudes 1 and 2, variance 4 each
(the spec's end-to-end scenario at distance 0). -/
def gsC1 : List GaussDyn := [⟨1, 0, 0, 1, 4⟩, ⟨2, 0, 0, 2, 4⟩]

/-! ### Permutation invariance of the partition (claim C6) -/

/-- A permutation of `Fin n` acting on `Nat` indices (identity outside
`[0, n)`). -/
def permNat {n : Nat} (σ : Equiv.Perm (Fin n)) : Nat → Nat :=
  fun a => if h : a < n then (σ ⟨a, h⟩ : Fin n).val else a

/-- The source list reordered by a permutation of its indices. -/
def permList (gs : List GaussDyn) (σ : Equiv.Perm (Fin gs.length)) :
    List GaussDyn :=
  List.ofFn (fun k => gs.get (σ k))

/-! ## Correspondence matrix and event detection
(`correspondence_matrix_with_roots`,
`detect_events_from_correspondence_matrix` in `src/umbrella_tracker.py`) -/

inductive EventType where
  | birth : EventType
  | merge : EventType
deriving DecidableEq

/-- A tracker event.  The Python code builds heterogeneous dicts; keys
absent from a given event kind are modelled as `none`. -/
structure Event where
  time : Int
  type : EventType
  target : Option (List Int)
  id : Option Int
  root : Option Int
  sources : Option (List Int)
deriving DecidableEq

/-- Birth event dict of `detect_events_from_correspondence_matrix`
(lines 159-165): `{"time", "type": "birth", "target": [r], "id": r,
"sources": []}`. -/
def mkBirth (t r : Int) : Event :=
  ⟨t, EventType.birth, some [r], some r, none, some []⟩

/-- Merge event dict (lines 174-179): `{"time", "type": "merge",
"target": [curr_root], "sources": merged_sources}`. -/
def mkMerge (t currRoot : Int) (srcs : List Int) : Event :=
  ⟨t, EventType.merge, some [currRoot], none, none, some srcs⟩

/-- First-frame birth event dict of `update_umbrella_tracking`
(line 239): `{"type": "birth", "root": id, "time": timestep, "id": id}`. -/
def mkBirthRoot (t r : Int) : Event :=
  ⟨t, EventType.birth, none, some r, some r, none⟩

/-- `correspondence_matrix_with_roots(prev_clusters, curr_clusters)`
(lines 73-85): `M[i, j] = 1` iff the member sets of previous root `i`
and current root `j` intersect; also returns both key lists. -/
def correspondence_matrix_with_roots (prev curr : List (Int × List Int)) :
    List (List Nat) × List Int × List Int :=
  let prev_roots := prev.map (·.1)
  let curr_roots := curr.map (·.1)
  let M := prev.map (fun pe =>
    curr.map (fun ce => if pe.2.any (fun x => ce.2.contains x) then 1 else 0))
  (M, prev_roots, curr_roots)

/-- Matrix entry `M[i][j]` (out of range reads 0). -/
def Mget (M : List (List Nat)) (i j : Nat) : Nat := (M.getD i []).getD j 0

/-- The row indices contributing to column `j`:
`np.where(M[:, j] == 1)[0]` (line 171). -/
def contribRows (M : List (List Nat)) (j : Nat) : List Nat :=
  (List.range M.length).filter (fun i => Mget M i j == 1)

/-- `merged_sources = [prev_roots[i] for i in contributing]` (line 173). -/
def contribIds (M : List (List Nat)) (prev_roots : List Int) (j : Nat) :
    List Int :=
  (contribRows M j).map (fun i => prev_roots.getD i 0)

/-- `detect_events_from_correspondence_matrix(M, prev_roots, curr_roots,
time)` (lines 137-182): birth events for current roots absent from the
previous root list, then one merge event per column with more than one
contributing row. -/
def detect_events_from_correspondence_matrix (M : List (List Nat))
    (prev_roots curr_roots : List Int) (time : Int) :
    List Event × List Int :=
  let new_roots := curr_roots.filter (fun r => !(prev_roots.contains r))
  let birthEvents := new_roots.map (fun r => mkBirth time r)
  let mergeEvents := (List.range curr_roots.length).filterMap (fun j =>
    if 1 < (contribRows M j).length then
      some (mkMerge time (curr_roots.getD j 0) (contribIds M prev_roots j))
    else none)
  (birthEvents ++ mergeEvents, new_roots)

/-! ## GaussianScene (`src/gaussian_scene.py`) -/

/-- A Gaussian source record as built by `add_gaussian` (lines 52-64).
`lam` models the Python dict key `"lambda"`. -/
structure Gaussian where
  id : Int
  x : ℝ
  y : ℝ
  amp : ℝ
  var : ℝ
  sx : ℝ
  sy : ℝ
  theta : ℝ
  gamma : ℝ
  lam : ℝ

instance : Inhabited Gaussian := ⟨⟨0, 0, 0, 0, 0, 0, 0, 0, 0, 0⟩⟩

/-- The scene state (`GaussianScene.__init__`, lines 14-27).  The
`_prev_clusters` attribute is attached dynamically by
`update_umbrella_tracking`; it is modelled as an `Option` field that
starts as `none`.  The path dicts are modelled as functions
(`path_index.get(gid, 0)` defaults to 0). -/
structure Scene where
  width : Nat
  height : Nat
  spacing : ℝ
  gaussians : List Gaussian
  next_id : Int
  distribution_type : String
  paths : Int → Option (List (ℝ × ℝ))
  path_index : Int → Nat
  path_speed : ℝ
  prev_clusters : Option (List (Int × List Int))

open Classical in
/-- `add_gaussian(x=None, y=None, amplitude=1.0, variance=100.0)`
(lines 46-66).  The two `random.uniform(0.2, 0.8)` draws are modelled
by the explicit parameters `rx`, `ry`; `math.sqrt` (line 59) raises
`ValueError: math domain error` on negative input, modelled by the
`Except.error` branch; the Python function has no `return` statement,
so its value is `None`, modelled as the second component
`Option Int := none` of the result.  The real-number comparison uses
classical decidability. -/
noncomputable def add_gaussian (s : Scene) (x? y? : Option ℝ)
    (rx ry : ℝ) (amplitude variance : ℝ) :
    Except String (Scene × Option Int) :=
  let x := x?.getD (rx * (s.width : ℝ) * s.spacing)
  let y := y?.getD (ry * (s.height : ℝ) * s.spacing)
  if variance < 0 then Except.error "math domain error"
  else
    Except.ok ({ s with
      gaussians := s.gaussians ++
        [⟨s.next_id, x, y, amplitude, variance, Real.sqrt variance,
          Real.sqrt (variance / 10), 40.0, variance,
          Real.sqrt variance⟩],
      next_id := s.next_id + 1 }, none)

/-- Value of the result of `add_gaussian` as seen by a caller:
the returned object, or `None` if an exception was raised. -/
def addGaussianRet (r : Except String (Scene × Option Int)) : Option Int :=
  match r with
  | Except.ok p => p.2
  | Except.error _ => none

/-- Whether `add_gaussian` raised an exception. -/
def addGaussianRaises (r : Except String (Scene × Option Int)) : Bool :=
  match r with
  | Except.ok _ => false
  | Except.error _ => true

/-! ### Distribution kernels (lines 72-115) -/

noncomputable def f_gaussian (x y : ℝ) (g : Gaussian) : ℝ :=
  let r2 := (x - g.x) ^ 2 + (y - g.y) ^ 2
  g.amp * Real.exp (-r2 / (2 * g.var))

noncomputable def f_cauchy (x y : ℝ) (g : Gaussian) : ℝ :=
  let r2 := (x - g.x) ^ 2 + (y - g.y) ^ 2
  g.amp / (1 + r2 / g.gamma)

noncomputable def f_mexican_hat (x y : ℝ) (g : Gaussian) : ℝ :=
  let r2 := (x - g.x) ^ 2 + (y - g.y) ^ 2
  let sigma := g.var
  g.amp * (1 - r2 / sigma ^ 2) * Real.exp (-r2 / (2 * sigma ^ 2))

noncomputable def f_exponential_decay (x y : ℝ) (g : Gaussian) : ℝ :=
  let r := Real.sqrt ((x - g.x) ^ 2 + (y - g.y) ^ 2)
  g.amp * Real.exp (-r / g.lam)

noncomputable def f_plateau (x y : ℝ) (g : Gaussian) : ℝ :=
  let r := Real.sqrt ((x - g.x) ^ 2 + (y - g.y) ^ 2)
  g.amp / (1 + (r / Real.sqrt g.var) ^ 3)

noncomputable def f_anisotropic (x y : ℝ) (g : Gaussian) : ℝ :=
  let xp := (x - g.x) * Real.cos g.theta + (y - g.y) * Real.sin g.theta
  let yp := -(x - g.x) * Real.sin g.theta + (y - g.y) * Real.cos g.theta
  g.amp * Real.exp (-(xp * xp) / (2 * g.sx * g.sx) -
    (yp * yp) / (2 * g.sy * g.sy))

noncomputable def f_multi_lobe (x y : ℝ) (g : Gaussian) : ℝ :=
  let r2 := (x - g.x) ^ 2 + (y - g.y) ^ 2
  let base := g.amp * Real.exp (-r2 / (2 * g.var))
  let angle := Complex.arg ⟨x - g.x, y - g.y⟩
  base * (1 + 0.3 * Real.sin (4 * angle))

noncomputable def f_ridge (x y : ℝ) (g : Gaussian) : ℝ :=
  let r := Real.sqrt ((x - g.x) ^ 2 + (y - g.y) ^ 2)
  g.amp * (1 - |Real.sin r|)

/-- `f_perlin` depends on the external `pnoise2` library function and
the import-success flag `PERLIN_AVAILABLE`; both are parameters. -/
noncomputable def f_perlin (pnoise : ℝ → ℝ → ℝ) (avail : Bool)
    (x y : ℝ) (g : Gaussian) : ℝ :=
  if avail then g.amp * pnoise (x * 0.05) (y * 0.05) else 0.0

/-- `dist_map` (lines 132-142): kernel selection by name; an unknown
name raises `KeyError` at the lookup on line 147, modelled by `none`. -/
noncomputable def dist_map (pnoise : ℝ → ℝ → ℝ) (avail : Bool)
    (name : String) : Option (ℝ → ℝ → Gaussian → ℝ) :=
  if name = "Gaussian" then some f_gaussian
  else if name = "Cauchy" then some f_cauchy
  else if name = "Mexican Hat" then some f_mexican_hat
  else if name = "Exponential" then some f_exponential_decay
  else if name = "Plateau" then some f_plateau
  else if name = "Anisotropic Gaussian" then some f_anisotropic
  else if name = "Multi-Lobe" then some f_multi_lobe
  else if name = "Ridge" then some f_ridge
  else if name = "Perlin Noise" then some (f_perlin pnoise avail)
  else none

/-- The value written at sub-sampled grid cell `(i, j)` by
`generate_image_data` (lines 120-161): `S = 2`, `dx = spacing / S`,
`x = i * dx`, `y = j * dx`, and the inner loop
`val = 0.0; for g in gaussians: val = max(val, dist_fn(x, y, g))`. -/
noncomputable def generate_cell (s : Scene)
    (dist_fn : ℝ → ℝ → Gaussian → ℝ) (i j : Nat) : ℝ :=
  let dx := s.spacing / 2
  let x := (i : ℝ) * dx
  let y := (j : ℝ) * dx
  s.gaussians.foldl (fun val g => max val (dist_fn x y g)) 0

/-- `generate_image_data` as its dimensions `W = width*2`, `H =
height*2` plus the dense cell map. -/
noncomputable def generate_image_data (s : Scene)
    (dist_fn : ℝ → ℝ → Gaussian → ℝ) : Nat × Nat × (Nat → Nat → ℝ) :=
  (s.width * 2, s.height * 2, fun i j => generate_cell s dist_fn i j)

/-- The spec's description of the cell value ("compute the kernel value
contributed by every source and take the maximum across sources"): the
plain maximum over the list of per-source contributions. -/
noncomputable def maxOverSources (s : Scene)
    (dist_fn : ℝ → ℝ → Gaussian → ℝ) (i j : Nat) : ℝ :=
  let dx := s.spacing / 2
  let x := (i : ℝ) * dx
  let y := (j : ℝ) * dx
  listMaxD (s.gaussians.map (fun g => dist_fn x y g))

/-- A one-source Mexican-hat scene: source at the origin with amplitude
1 and variance 1, grid spacing 2, so that cell `(1, 1)` lies at world
position `(1, 1)` where the kernel contribution is `-exp(-1) < 0`. -/
noncomputable def sC4 : Scene :=
  ⟨1, 1, 2, [⟨1, 0, 0, 1, 1, 1, 1, 1, 1, 1⟩], 2, "Mexican Hat",
    fun _ => none, fun _ => 0, 1, none⟩

/-- A fresh empty scene (the `__init__` state with `width=height=200`,
`spacing=1.0`, `_next_id=1`). -/
noncomputable def sC7 : Scene :=
  ⟨200, 200, 1, [], 1, "Gaussian", fun _ => none, fun _ => 0, 1/2, none⟩

/-! ## Per-tick tracking update (`update_umbrella_tracking`,
`src/umbrella_tracker.py` lines 201-262) and its caller
(`gui.py` `_update_timer`, lines 1147-1152) -/

/-- The `gcopy` projection of lines 213-219: the per-source dict
handed to the clusterer. -/
def gcopy (g : Gaussian) : GaussDyn := ⟨g.id, g.x, g.y, g.amp, g.var⟩

/-- `update_umbrella_tracking(scene, output_dir, timestep)`.  The
filesystem side effects (`os.makedirs`, the `open`/`json.dump` of
lines 250-252) are modelled by the `persist` parameter; on
`Except.error` the exception propagates out of the function *before*
the assignment `scene._prev_clusters = clusters_dict` on line 259, so
neither the new clustering nor the events reach the caller. -/
noncomputable def update_umbrella_tracking (scene : Scene)
    (persist : Except String Unit) (timestep : Int) :
    Except String (Scene × List Event) :=
  let gcopyList := scene.gaussians.map gcopy
  let clusters_dict := (umbrella_clusters_with_roots gcopyList).1
  let events_detected :=
    match scene.prev_clusters with
    | some prev_clusters =>
      let c := correspondence_matrix_with_roots prev_clusters clusters_dict
      (detect_events_from_correspondence_matrix c.1 c.2.1 c.2.2 timestep).1
    | none =>
      (clusters_dict.map (·.1)).map (fun id => mkBirthRoot timestep id)
  match persist with
  | Except.error e => Except.error e
  | Except.ok _ =>
    Except.ok ({ scene with prev_clusters := some clusters_dict },
      events_detected)

/-- The GUI state touched by the tracking tail of `_update_timer`. -/
structure GuiState where
  scene : Scene
  events : List Event
  tracking_timestep : Int

/-- The `try/except` tail of `_update_timer` (gui.py lines 1147-1152):
on success the detected events are appended to the event log and the
timestep advances; on failure the exception is caught, the error is
printed, and the state is left as it was. -/
noncomputable def updateTimerTick (st : GuiState)
    (persist : Except String Unit) : GuiState :=
  match update_umbrella_tracking st.scene persist st.tracking_timestep with
  | Except.ok (sc, evs) =>
    ⟨sc, st.events ++ evs, st.tracking_timestep + 1⟩
  | Except.error _ => st

/-- A one-source GUI state that has never been clustered
(`_prev_clusters` absent). -/
noncomputable def stC3 : GuiState :=
  ⟨⟨200, 200, 1, [⟨1, 0, 0, 1, 100, 10, 1, 40, 100, 10⟩], 2, "Gaussian",
    fun _ => none, fun _ => 0, 1/2, none⟩, [], 0⟩

/-! ## Path-driven advection (`move_gaussians_by_custom_path`,
`src/gaussian_scene.py` lines 251-282) -/

open Classical in
/-- The per-source body of the loop (lines 260-281): sources with no
path entry, or an empty path, are skipped; otherwise the source heads
toward waypoint `paths[gid][idx]` by `path_speed` along the unit
direction, or — when already within 0.5 world units of it — stays put
and advances the cursor, wrapping it to 0 past the end of the path.
The real comparison `dist < 0.5` uses classical decidability. -/
noncomputable def moveOneByPath (paths : Int → Option (List (ℝ × ℝ)))
    (pidx : Int → Nat) (path_speed : ℝ) (g : Gaussian) :
    Gaussian × (Int → Nat) :=
  match paths g.id with
  | none => (g, pidx)
  | some wps =>
    if 0 < wps.length then
      let idx := pidx g.id
      let t := wps.getD idx (0, 0)
      let dxv := t.1 - g.x
      let dyv := t.2 - g.y
      let dist := Real.sqrt (dxv * dxv + dyv * dyv)
      if dist < 0.5 then
        (g, Function.update pidx g.id
          (if wps.length ≤ idx + 1 then 0 else idx + 1))
      else
        ({ g with
          x := g.x + path_speed * dxv / dist,
          y := g.y + path_speed * dyv / dist }, pidx)
    else (g, pidx)

/-- The `for g in self.gaussians` loop, threading the mutable
`path_index` dict through the iterations. -/
noncomputable def moveLoop (paths : Int → Option (List (ℝ × ℝ)))
    (path_speed : ℝ) : List Gaussian → (Int → Nat) →
      List Gaussian × (Int → Nat)
  | [], pidx => ([], pidx)
  | g :: rest, pidx =>
    let r := moveOneByPath paths pidx path_speed g
    let rr := moveLoop paths path_speed rest r.2
    (r.1 :: rr.1, rr.2)

/-- `move_gaussians_by_custom_path(self, vector_field, speed=1.0)`
(lines 251-282; both parameters are unused by the body, which reads
`self.path_speed`). -/
noncomputable def move_gaussians_by_custom_path (s : Scene) : Scene :=
  let r := moveLoop s.paths s.path_speed s.gaussians s.path_index
  { s with gaussians := r.1, path_index := r.2 }

noncomputable def sC9 : Scene :=
  ⟨200, 200, 1, [⟨7, 0, 0, 1, 1, 1, 1, 1, 1, 1⟩], 8, "Gaussian",
    fun i => if i = 7 then some [(10, 0)] else none,
    fun _ => 0, 1/2, none⟩

noncomputable def sC9w : Scene :=
  ⟨200, 200, 1, [⟨5, 3, 4, 1, 1, 1, 1, 1, 1, 1⟩], 6, "Gaussian",
    fun _ => none, fun _ => 0, 1, none⟩

/-! ## Noise application with range restoration
(`apply_noise_to_scalar_field`, `src/noises.py` lines 96-148) -/

/-- `apply_noise_to_scalar_field(vtk_image, noise_type, amount)`
(lines 96-148).  The scalar field is modelled as the flat list of its
values; the selected stochastic noise transform (lines 115-136, one
`add_*_noise` per recognised kind, identity for unrecognised kinds) is
modelled by the explicit parameter `noiseFn` acting on the normalised
field.  `noise_type == 'None'` returns the field unchanged (lines
100-101); otherwise the field is normalised by
`(v - orig_min) / (orig_max - orig_min + 1e-8)` (line 112), the noise
is applied, the range is restored by `v * (orig_max - orig_min) +
orig_min` (line 139) and the result clipped to
`[orig_min, orig_max]` (line 140). -/
noncomputable def apply_noise_to_scalar_field
    (noiseFn : List ℝ → List ℝ) (noise_type : String)
    (field : List ℝ) : List ℝ :=
  if noise_type = "None" then field
  else
    let orig_min := listMinD field
    let orig_max := listMaxD field
    let field_norm := field.map
      (fun v => (v - orig_min) / (orig_max - orig_min + 1e-8))
    let field_noisy := noiseFn field_norm
    let field_restored := field_noisy.map
      (fun v => v * (orig_max - orig_min) + orig_min)
    field_restored.map (fun v => npClip v orig_min orig_max)


/-! ## Theorems -/

theorem foldl_min_le_self (l : List ℝ) (a : ℝ) : l.foldl min a ≤ a := by
  induction l generalizing a with
  | nil => simp
  | cons x xs ih => exact le_trans (ih (min a x)) (min_le_left a x)

theorem foldl_min_le_mem (l : List ℝ) (a : ℝ) {x : ℝ} (hx : x ∈ l) :
    l.foldl min a ≤ x := by
  induction l generalizing a with
  | nil => cases hx
  | cons y ys ih =>
    rcases List.mem_cons.mp hx with rfl | h
    · exact le_trans (foldl_min_le_self ys (min a x)) (min_le_right a x)
    · exact ih (min a y) h

theorem self_le_foldl_max (l : List ℝ) (a : ℝ) : a ≤ l.foldl max a := by
  induction l generalizing a with
  | nil => simp
  | cons x xs ih => exact le_trans (le_max_left a x) (ih (max a x))

theorem mem_le_foldl_max (l : List ℝ) (a : ℝ) {x : ℝ} (hx : x ∈ l) :
    x ≤ l.foldl max a := by
  induction l generalizing a with
  | nil => cases hx
  | cons y ys ih =>
    rcases List.mem_cons.mp hx with rfl | h
    · exact le_trans (le_max_right a x) (self_le_foldl_max ys (max a x))
    · exact ih (max a y) h

theorem foldl_min_mem_or (l : List ℝ) (a : ℝ) :
    l.foldl min a = a ∨ l.foldl min a ∈ l := by
  induction l generalizing a with
  | nil => exact Or.inl rfl
  | cons x xs ih =>
    rcases ih (min a x) with h | h
    · rcases min_cases a x with ⟨h', _⟩ | ⟨h', _⟩
      · exact Or.inl (by rw [List.foldl_cons, h, h'])
      · exact Or.inr (by rw [List.foldl_cons, h, h']; exact List.mem_cons_self x xs)
    · exact Or.inr (List.mem_cons_of_mem x h)

theorem foldl_max_mem_or (l : List ℝ) (a : ℝ) :
    l.foldl max a = a ∨ l.foldl max a ∈ l := by
  induction l generalizing a with
  | nil => exact Or.inl rfl
  | cons x xs ih =>
    rcases ih (max a x) with h | h
    · rcases max_cases a x with ⟨h', _⟩ | ⟨h', _⟩
      · exact Or.inl (by rw [List.foldl_cons, h, h'])
      · exact Or.inr (by rw [List.foldl_cons, h, h']; exact List.mem_cons_self x xs)
    · exact Or.inr (List.mem_cons_of_mem x h)

theorem listMinD_le {l : List ℝ} {x : ℝ} (hx : x ∈ l) : listMinD l ≤ x :=
  foldl_min_le_mem l (l.headD 0) hx

theorem le_listMaxD {l : List ℝ} {x : ℝ} (hx : x ∈ l) : x ≤ listMaxD l :=
  mem_le_foldl_max l (l.headD 0) hx

theorem listMinD_mem {l : List ℝ} (h : l ≠ []) : listMinD l ∈ l := by
  rcases foldl_min_mem_or l (l.headD 0) with h' | h'
  · rw [listMinD, h']
    cases l with
    | nil => exact absurd rfl h
    | cons x xs => exact List.mem_cons_self x xs
  · exact h'

theorem listMaxD_mem {l : List ℝ} (h : l ≠ []) : listMaxD l ∈ l := by
  rcases foldl_max_mem_or l (l.headD 0) with h' | h'
  · rw [listMaxD, h']
    cases l with
    | nil => exact absurd rfl h
    | cons x xs => exact List.mem_cons_self x xs
  · exact h'

theorem listMinD_le_listMaxD {l : List ℝ} (h : l ≠ []) :
    listMinD l ≤ listMaxD l :=
  le_listMaxD (listMinD_mem h)

theorem iterP_add (p : List Nat) (a b i : Nat) :
    iterP p (a + b) i = iterP p b (iterP p a i) := by
  induction a generalizing i with
  | zero => simp [iterP]
  | succ a ih =>
    rw [Nat.succ_add]
    show iterP p (a + b) (pstep p i) = iterP p b (iterP p a (pstep p i))
    exact ih (pstep p i)

theorem iterP_root_stable {p : List Nat} {r : Nat} (h : isRootP p r) (k : Nat) :
    iterP p k r = r := by
  induction k with
  | zero => rfl
  | succ k ih =>
    show iterP p k (pstep p r) = r
    rw [h]; exact ih

theorem iterP_succ_front (p : List Nat) (k i : Nat) :
    iterP p (k + 1) i = iterP p k (pstep p i) := rfl

theorem iterP_lt {p : List Nat} (hp : UFok p) {i : Nat} (hi : i < p.length)
    (k : Nat) : iterP p k i < p.length := by
  induction k generalizing i with
  | zero => exact hi
  | succ k ih => exact ih (hp.1 i hi)

theorem minDepth_exists {p : List Nat} {i : Nat}
    (h : ∃ k, isRootP p (iterP p k i)) : ∃ m, MinDepth p i m :=
  ⟨Nat.find h, Nat.find_spec h, fun k hk => Nat.find_min h hk⟩

theorem minDepth_unique {p : List Nat} {i m m' : Nat}
    (h : MinDepth p i m) (h' : MinDepth p i m') : m = m' := by
  rcases Nat.lt_trichotomy m m' with hlt | heq | hgt
  · exact absurd h.1 (h'.2 m hlt)
  · exact heq
  · exact absurd h'.1 (h.2 m' hgt)

theorem minDepth_of_isRoot {p : List Nat} {i : Nat} (h : isRootP p i) :
    MinDepth p i 0 :=
  ⟨h, fun k hk => absurd hk (Nat.not_lt_zero k)⟩

theorem minDepth_zero_isRoot {p : List Nat} {i : Nat} (h : MinDepth p i 0) :
    isRootP p i := h.1

theorem minDepth_pos {p : List Nat} {i m : Nat} (h : MinDepth p i m)
    (hi : ¬ isRootP p i) : 0 < m := by
  rcases Nat.eq_zero_or_pos m with rfl | hm
  · exact absurd h.1 hi
  · exact hm

theorem minDepth_shift {p : List Nat} {i m : Nat} (h : MinDepth p i m)
    {t : Nat} (ht : t ≤ m) : MinDepth p (iterP p t i) (m - t) := by
  constructor
  · rw [← iterP_add, Nat.add_sub_cancel' ht]; exact h.1
  · intro k hk hroot
    rw [← iterP_add] at hroot
    exact h.2 (t + k) (by omega) hroot

theorem minDepth_pstep {p : List Nat} {i m : Nat} (h : MinDepth p i (m + 1)) :
    MinDepth p (pstep p i) m := by
  have := minDepth_shift h (t := 1) (by omega)
  simpa [iterP] using this

theorem iterP_ge_depth {p : List Nat} {i m : Nat} (h : MinDepth p i m)
    {k : Nat} (hk : m ≤ k) : iterP p k i = iterP p m i := by
  rw [← Nat.add_sub_cancel' hk, iterP_add]
  exact iterP_root_stable h.1 (k - m)

/-- Pigeonhole: the nodes on a shortest path to the root are pairwise
distinct members of `range p.length`, so the depth is below `p.length`. -/
theorem minDepth_lt_length {p : List Nat} (hp : UFok p) {i m : Nat}
    (hi : i < p.length) (h : MinDepth p i m) : m < p.length := by
  have hinj : Set.InjOn (fun t => iterP p t i) ↑(Finset.range (m + 1)) := by
    intro a ha b hb hab
    simp only [Finset.coe_range, Set.mem_Iio] at ha hb
    have hab' : iterP p a i = iterP p b i := hab
    by_contra hne
    have h1 := minDepth_shift h (t := a) (by omega)
    have h2 := minDepth_shift h (t := b) (by omega)
    rw [hab'] at h1
    have := minDepth_unique h1 h2
    omega
  have hsub : Finset.image (fun t => iterP p t i) (Finset.range (m + 1)) ⊆
      Finset.range p.length := by
    intro x hx
    simp only [Finset.mem_image, Finset.mem_range] at hx ⊢
    rcases hx with ⟨t, _, rfl⟩
    exact iterP_lt hp hi t
  have hcard := Finset.card_le_card hsub
  rw [Finset.card_image_of_injOn hinj, Finset.card_range, Finset.card_range]
    at hcard
  omega

theorem rootFuel_eq_iterP {p : List Nat} {i m : Nat} (h : MinDepth p i m)
    {f : Nat} (hf : m ≤ f) : rootFuel p f i = iterP p m i := by
  induction f generalizing i m with
  | zero =>
    have : m = 0 := by omega
    subst this; rfl
  | succ f ih =>
    by_cases hroot : pstep p i = i
    · have : m = 0 := minDepth_unique h (minDepth_of_isRoot hroot)
      subst this
      simp [rootFuel, hroot, iterP]
    · have hm : 0 < m := minDepth_pos h hroot
      obtain ⟨m', rfl⟩ : ∃ m', m = m' + 1 := ⟨m - 1, by omega⟩
      have hstep := minDepth_pstep h
      rw [show rootFuel p (f + 1) i = rootFuel p f (pstep p i) by
        simp [rootFuel, hroot]]
      rw [ih hstep (by omega)]
      rfl

theorem rootD_spec {p : List Nat} (hp : UFok p) {i : Nat}
    (hi : i < p.length) :
    ∃ m, MinDepth p i m ∧ rootD p i = iterP p m i := by
  obtain ⟨m, hm⟩ := minDepth_exists (hp.2 i hi)
  exact ⟨m, hm, rootFuel_eq_iterP hm (le_of_lt (minDepth_lt_length hp hi hm))⟩

theorem rootD_isRoot {p : List Nat} (hp : UFok p) {i : Nat}
    (hi : i < p.length) : isRootP p (rootD p i) := by
  obtain ⟨m, hm, heq⟩ := rootD_spec hp hi
  rw [heq]; exact hm.1

theorem rootD_reaches {p : List Nat} (hp : UFok p) {i : Nat}
    (hi : i < p.length) : ∃ k, iterP p k i = rootD p i := by
  obtain ⟨m, _, heq⟩ := rootD_spec hp hi
  exact ⟨m, heq.symm⟩

theorem rootD_lt {p : List Nat} (hp : UFok p) {i : Nat} (hi : i < p.length) :
    rootD p i < p.length := by
  obtain ⟨m, _, heq⟩ := rootD_spec hp hi
  rw [heq]; exact iterP_lt hp hi m

theorem rootD_of_isRoot {p : List Nat} {i : Nat} (h : isRootP p i) :
    rootD p i = i := by
  unfold rootD
  unfold isRootP at h
  cases hl : p.length with
  | zero => rfl
  | succ f => simp [rootFuel, h]

/-- Uniqueness: any root reachable from `i` is `rootD p i`. -/
theorem rootD_eq_of_reach {p : List Nat} (hp : UFok p) {i r t : Nat}
    (hi : i < p.length) (hr : isRootP p r) (ht : iterP p t i = r) :
    rootD p i = r := by
  obtain ⟨m, hm, heq⟩ := rootD_spec hp hi
  rcases le_or_lt t m with hle | hlt
  · have := minDepth_shift hm hle
    rw [ht] at this
    have h0 : m - t = 0 := minDepth_unique this (minDepth_of_isRoot hr)
    have : t = m := by omega
    subst this
    rw [heq, ht]
  · rw [iterP_ge_depth hm (le_of_lt hlt)] at ht
    rw [heq, ht]

theorem rootD_idem {p : List Nat} (hp : UFok p) {i : Nat}
    (hi : i < p.length) : rootD p (rootD p i) = rootD p i :=
  rootD_of_isRoot (rootD_isRoot hp hi)

theorem rootD_pstep {p : List Nat} (hp : UFok p) {i : Nat}
    (hi : i < p.length) : rootD p (pstep p i) = rootD p i := by
  by_cases hroot : isRootP p i
  · rw [hroot]
  · obtain ⟨m, hm, heq⟩ := rootD_spec hp hi
    have hpos := minDepth_pos hm hroot
    obtain ⟨m', rfl⟩ : ∃ m', m = m' + 1 := ⟨m - 1, by omega⟩
    have hstep := minDepth_pstep hm
    exact rootD_eq_of_reach hp (hp.1 i hi) (heq ▸ hm.1)
      (show iterP p m' (pstep p i) = rootD p i by rw [heq]; rfl)

theorem rootD_eq_self_isRoot {p : List Nat} (hp : UFok p) {i : Nat}
    (hi : i < p.length) (h : rootD p i = i) : isRootP p i := by
  have := rootD_isRoot hp hi
  rwa [h] at this

theorem pstep_set {p : List Nat} {a : Nat} (ha : a < p.length) (b x : Nat) :
    pstep (p.set a b) x = if x = a then b else pstep p x := by
  unfold pstep
  by_cases hx : x = a
  · subst hx
    simp [List.getD_eq_getElem?_getD, List.getElem?_set, ha]
  · rw [if_neg hx]
    simp [List.getD_eq_getElem?_getD, List.getElem?_set, Ne.symm hx]

theorem iterP_set_avoid {p : List Nat} {a : Nat} (ha : a < p.length)
    (b : Nat) : ∀ (t x : Nat), (∀ s, s ≤ t → iterP p s x ≠ a) →
    iterP (p.set a b) t x = iterP p t x := by
  intro t
  induction t with
  | zero => intro x _; rfl
  | succ t ih =>
    intro x hx
    have hx0 : x ≠ a := hx 0 (by omega)
    show iterP (p.set a b) t (pstep (p.set a b) x) = iterP p t (pstep p x)
    rw [pstep_set ha b x, if_neg hx0]
    exact ih (pstep p x) (fun s hs => hx (s + 1) (by omega))

theorem minDepth_avoid {p : List Nat} {x dx a m : Nat} (hx : MinDepth p x dx)
    (hia : MinDepth p a m) (hlt : dx < m) :
    ∀ s, s ≤ dx → iterP p s x ≠ a := by
  intro s hs heq
  have h1 := minDepth_shift hx hs
  rw [heq] at h1
  have := minDepth_unique h1 hia
  omega

/-- A non-root `i` never has itself as grandparent in a well-formed
parent list (otherwise no root would be reachable from `i`). -/
theorem compress_g_ne {p : List Nat} (hp : UFok p) {i : Nat}
    (hi : i < p.length) (hnr : ¬ isRootP p i) :
    pstep p (pstep p i) ≠ i := by
  intro hg
  have hpi_ne : pstep p i ≠ i := hnr
  have hpi_nr : ¬ isRootP p (pstep p i) := by
    intro hroot
    unfold isRootP at hroot
    rw [hroot] at hg
    exact hpi_ne hg
  have halt : ∀ k, iterP p k i = i ∨ iterP p k i = pstep p i := by
    intro k
    induction k using Nat.twoStepInduction with
    | zero => exact Or.inl rfl
    | one => exact Or.inr rfl
    | more k ih _ =>
      have h2 : iterP p (k + 2) i = iterP p k i := by
        rw [show k + 2 = 2 + k by omega, iterP_add]
        rw [show iterP p 2 i = i from hg]
      rw [h2]; exact ih
  obtain ⟨k, hk⟩ := hp.2 i hi
  rcases halt k with h | h
  · rw [h] at hk; exact hnr hk
  · rw [h] at hk; exact hpi_nr hk

/-- After a path-halving write, every node still reaches its old root. -/
theorem compress_reaches {p : List Nat} (hp : UFok p) {i : Nat}
    (hi : i < p.length) (hnr : ¬ isRootP p i) :
    ∀ (m x : Nat), x < p.length → MinDepth p x m →
      ∃ k, iterP (p.set i (pstep p (pstep p i))) k x = rootD p x := by
  intro m
  induction m using Nat.strong_induction_on with
  | _ m ih =>
    intro x hx hxm
    by_cases hxr : isRootP p x
    · exact ⟨0, (rootD_of_isRoot hxr).symm⟩
    · by_cases hxi : x = i
      · subst hxi
        by_cases hpir : isRootP p (pstep p x)
        · have hgpi : pstep p (pstep p x) = pstep p x := hpir
          have hroot : rootD p x = pstep p x :=
            rootD_eq_of_reach hp hx hpir
              (show iterP p 1 x = pstep p x from rfl)
          refine ⟨1, ?_⟩
          show pstep (p.set x (pstep p (pstep p x))) x = rootD p x
          rw [pstep_set hx _ x, if_pos rfl, hgpi, hroot]
        · have hm1 : 0 < m := minDepth_pos hxm hxr
          obtain ⟨m', rfl⟩ : ∃ m', m = m' + 1 := ⟨m - 1, by omega⟩
          have hdpi : MinDepth p (pstep p x) m' := minDepth_pstep hxm
          have hm2 : 0 < m' := minDepth_pos hdpi hpir
          obtain ⟨m'', rfl⟩ : ∃ m'', m' = m'' + 1 := ⟨m' - 1, by omega⟩
          have hdg : MinDepth p (pstep p (pstep p x)) m'' := minDepth_pstep hdpi
          have hglt : pstep p (pstep p x) < p.length :=
            hp.1 _ (hp.1 x hx)
          obtain ⟨k, hk⟩ := ih m'' (by omega) _ hglt hdg
          refine ⟨k + 1, ?_⟩
          show iterP (p.set x (pstep p (pstep p x))) k
            (pstep (p.set x (pstep p (pstep p x))) x) = rootD p x
          rw [pstep_set hx _ x, if_pos rfl, hk,
            rootD_pstep hp (hp.1 x hx), rootD_pstep hp hx]
      · have hm1 : 0 < m := minDepth_pos hxm hxr
        obtain ⟨m', rfl⟩ : ∃ m', m = m' + 1 := ⟨m - 1, by omega⟩
        have hd : MinDepth p (pstep p x) m' := minDepth_pstep hxm
        obtain ⟨k, hk⟩ := ih m' (by omega) (pstep p x) (hp.1 x hx) hd
        refine ⟨k + 1, ?_⟩
        show iterP (p.set i (pstep p (pstep p i))) k
          (pstep (p.set i (pstep p (pstep p i))) x) = rootD p x
        rw [pstep_set hi _ x, if_neg hxi, hk, rootD_pstep hp hx]

/-- A path-halving write preserves well-formedness and every root. -/
theorem set_compress {p : List Nat} (hp : UFok p) {i : Nat}
    (hi : i < p.length) (hnr : ¬ isRootP p i) :
    UFok (p.set i (pstep p (pstep p i))) ∧
    (p.set i (pstep p (pstep p i))).length = p.length ∧
    ∀ x, x < p.length →
      rootD (p.set i (pstep p (pstep p i))) x = rootD p x := by
  have hlen : (p.set i (pstep p (pstep p i))).length = p.length := by simp
  have hglt : pstep p (pstep p i) < p.length := hp.1 _ (hp.1 i hi)
  have hgne : pstep p (pstep p i) ≠ i := compress_g_ne hp hi hnr
  have hroot_iff : ∀ x, isRootP (p.set i (pstep p (pstep p i))) x ↔
      isRootP p x := by
    intro x
    unfold isRootP
    rw [pstep_set hi _ x]
    by_cases hxi : x = i
    · subst hxi
      simp only [if_pos rfl]
      constructor
      · intro h; exact absurd h hgne
      · intro h; exact absurd h hnr
    · rw [if_neg hxi]
  have hreach : ∀ x, x < p.length →
      ∃ k, iterP (p.set i (pstep p (pstep p i))) k x = rootD p x := by
    intro x hx
    obtain ⟨m, hm⟩ := minDepth_exists (hp.2 x hx)
    exact compress_reaches hp hi hnr m x hx hm
  have hq : UFok (p.set i (pstep p (pstep p i))) := by
    constructor
    · intro x hx
      rw [hlen] at hx ⊢
      rw [pstep_set hi _ x]
      by_cases hxi : x = i
      · rw [if_pos hxi]; exact hglt
      · rw [if_neg hxi]; exact hp.1 x hx
    · intro x hx
      rw [hlen] at hx
      obtain ⟨k, hk⟩ := hreach x hx
      refine ⟨k, ?_⟩
      rw [hk, hroot_iff]
      exact rootD_isRoot hp hx
  refine ⟨hq, hlen, fun x hx => ?_⟩
  obtain ⟨k, hk⟩ := hreach x hx
  exact rootD_eq_of_reach hq (by rw [hlen]; exact hx)
    ((hroot_iff _).mpr (rootD_isRoot hp hx)) hk

/-- After linking root `ri` under root `rj`, every node reaches its new
root (`rj` for the old class of `ri`, unchanged otherwise). -/
theorem link_reaches {p : List Nat} (hp : UFok p) {ri rj : Nat}
    (hri : ri < p.length) (hrooti : isRootP p ri) (hrootj : isRootP p rj) :
    ∀ (m x : Nat), x < p.length → MinDepth p x m →
      ∃ k, iterP (p.set ri rj) k x =
        (if rootD p x = ri then rj else rootD p x) := by
  intro m
  induction m using Nat.strong_induction_on with
  | _ m ih =>
    intro x hx hxm
    by_cases hxr : isRootP p x
    · have hrx : rootD p x = x := rootD_of_isRoot hxr
      by_cases hxi : x = ri
      · subst hxi
        rw [hrx, if_pos rfl]
        refine ⟨1, ?_⟩
        show pstep (p.set x rj) x = rj
        rw [pstep_set hri rj x, if_pos rfl]
      · refine ⟨0, ?_⟩
        rw [hrx, if_neg hxi]
        rfl
    · have hxi : x ≠ ri := fun h => hxr (h ▸ hrooti)
      have hm1 : 0 < m := minDepth_pos hxm hxr
      obtain ⟨m', rfl⟩ : ∃ m', m = m' + 1 := ⟨m - 1, by omega⟩
      obtain ⟨k, hk⟩ :=
        ih m' (by omega) (pstep p x) (hp.1 x hx) (minDepth_pstep hxm)
      refine ⟨k + 1, ?_⟩
      show iterP (p.set ri rj) k (pstep (p.set ri rj) x) = _
      rw [pstep_set hri rj x, if_neg hxi, hk, rootD_pstep hp hx]

/-- Linking root `ri` under a different root `rj` preserves
well-formedness and redirects exactly the class of `ri` to `rj`. -/
theorem set_link {p : List Nat} (hp : UFok p) {ri rj : Nat}
    (hri : ri < p.length) (hrj : rj < p.length)
    (hrooti : isRootP p ri) (hrootj : isRootP p rj) (hne : ri ≠ rj) :
    UFok (p.set ri rj) ∧ (p.set ri rj).length = p.length ∧
    ∀ x, x < p.length → rootD (p.set ri rj) x =
      (if rootD p x = ri then rj else rootD p x) := by
  have hlen : (p.set ri rj).length = p.length := by simp
  have hroot_new : ∀ x, x ≠ ri → (isRootP (p.set ri rj) x ↔ isRootP p x) := by
    intro x hxi
    unfold isRootP
    rw [pstep_set hri rj x, if_neg hxi]
  have htgt_root : ∀ x, x < p.length →
      isRootP (p.set ri rj) (if rootD p x = ri then rj else rootD p x) := by
    intro x hx
    by_cases hcase : rootD p x = ri
    · rw [if_pos hcase]
      exact (hroot_new rj (Ne.symm hne)).mpr hrootj
    · rw [if_neg hcase]
      exact (hroot_new _ hcase).mpr (rootD_isRoot hp hx)
  have hreach : ∀ x, x < p.length →
      ∃ k, iterP (p.set ri rj) k x =
        (if rootD p x = ri then rj else rootD p x) := by
    intro x hx
    obtain ⟨m, hm⟩ := minDepth_exists (hp.2 x hx)
    exact link_reaches hp hri hrooti hrootj m x hx hm
  have hq : UFok (p.set ri rj) := by
    constructor
    · intro x hx
      rw [hlen] at hx ⊢
      rw [pstep_set hri rj x]
      by_cases hxi : x = ri
      · rw [if_pos hxi]; exact hrj
      · rw [if_neg hxi]; exact hp.1 x hx
    · intro x hx
      rw [hlen] at hx
      obtain ⟨k, hk⟩ := hreach x hx
      exact ⟨k, hk ▸ htgt_root x hx⟩
  refine ⟨hq, hlen, fun x hx => ?_⟩
  obtain ⟨k, hk⟩ := hreach x hx
  exact rootD_eq_of_reach hq (by rw [hlen]; exact hx) (htgt_root x hx) hk

/-- Full specification of `find` given enough fuel: it returns the root
of its argument and preserves the length, well-formedness, and every
root of the parent list. -/
theorem find_spec {f : Nat} : ∀ {p : List Nat}, UFok p → ∀ {i m : Nat},
    i < p.length → MinDepth p i m → m ≤ f →
    (find f p i).2 = rootD p i ∧ (find f p i).1.length = p.length ∧
    UFok (find f p i).1 ∧
    ∀ x, x < p.length → rootD (find f p i).1 x = rootD p x := by
  induction f with
  | zero =>
    intro p hp i m hi hm hf
    have : m = 0 := by omega
    subst this
    have hroot : isRootP p i := hm.1
    exact ⟨(rootD_of_isRoot hroot).symm, rfl, hp, fun x _ => rfl⟩
  | succ f ih =>
    intro p hp i m hi hm hf
    by_cases hroot : pstep p i = i
    · have heq : find (f + 1) p i = (p, i) := by
        show (if pstep p i = i then (p, i) else _) = (p, i)
        rw [if_pos hroot]
      rw [heq]
      exact ⟨(rootD_of_isRoot hroot).symm, rfl, hp, fun x _ => rfl⟩
    · have heq : find (f + 1) p i =
          find f (p.set i (pstep p (pstep p i))) (pstep p (pstep p i)) := by
        show (if pstep p i = i then (p, i) else _) = _
        rw [if_neg hroot]
      obtain ⟨hq, hlen, hpres⟩ := set_compress hp hi hroot
      have hglt : pstep p (pstep p i) < p.length := hp.1 _ (hp.1 i hi)
      have hm1 : 0 < m := minDepth_pos hm hroot
      -- depth of the grandparent in the updated list
      have hgdepth : ∃ m'', MinDepth (p.set i (pstep p (pstep p i)))
          (pstep p (pstep p i)) m'' ∧ m'' ≤ f := by
        by_cases hpir : isRootP p (pstep p i)
        · -- grandparent = parent is a root, also in the updated list
          have hgpi : pstep p (pstep p i) = pstep p i := hpir
          have : isRootP (p.set i (pstep p (pstep p i)))
              (pstep p (pstep p i)) := by
            unfold isRootP
            rw [pstep_set hi _ _, if_neg]
            · rw [hgpi]; exact hpir
            · rw [hgpi]; exact hroot
          exact ⟨0, minDepth_of_isRoot this, by omega⟩
        · obtain ⟨m', rfl⟩ : ∃ m', m = m' + 1 := ⟨m - 1, by omega⟩
          have hdpi : MinDepth p (pstep p i) m' := minDepth_pstep hm
          have hm2 : 0 < m' := minDepth_pos hdpi hpir
          obtain ⟨m'', rfl⟩ : ∃ m'', m' = m'' + 1 := ⟨m' - 1, by omega⟩
          have hdg : MinDepth p (pstep p (pstep p i)) m'' := minDepth_pstep hdpi
          -- the path from the grandparent avoids `i`, so depths agree
          have havoid : ∀ s, s ≤ m'' → iterP p s (pstep p (pstep p i)) ≠ i :=
            minDepth_avoid hdg hm (by omega)
          have hiter : ∀ t, t ≤ m'' →
              iterP (p.set i (pstep p (pstep p i))) t (pstep p (pstep p i)) =
              iterP p t (pstep p (pstep p i)) := by
            intro t ht
            exact iterP_set_avoid hi _ t _ (fun s hs => havoid s (by omega))
          have hrootiff : ∀ x, isRootP (p.set i (pstep p (pstep p i))) x ↔
              isRootP p x := by
            intro x
            unfold isRootP
            rw [pstep_set hi _ x]
            by_cases hxi : x = i
            · subst hxi
              simp only [if_pos rfl]
              constructor
              · intro h; exact absurd h (compress_g_ne hp hi hroot)
              · intro h; exact absurd h hroot
            · rw [if_neg hxi]
          refine ⟨m'', ⟨?_, ?_⟩, by omega⟩
          · rw [hiter m'' (by omega), hrootiff]
            exact hdg.1
          · intro k hk hcontra
            rw [hiter k (by omega), hrootiff] at hcontra
            exact hdg.2 k hk hcontra
      obtain ⟨m'', hm'', hle⟩ := hgdepth
      have hglt' : pstep p (pstep p i) <
          (p.set i (pstep p (pstep p i))).length := by rw [hlen]; exact hglt
      obtain ⟨h1, h2, h3, h4⟩ := ih hq hglt' hm'' hle
      rw [heq]
      refine ⟨?_, ?_, h3, ?_⟩
      · rw [h1, hpres _ hglt, rootD_pstep hp (hp.1 i hi), rootD_pstep hp hi]
      · rw [h2, hlen]
      · intro x hx
        rw [h4 x (by rw [hlen]; exact hx), hpres x hx]

/-- `find` with fuel `p.length`, the fuel used at every call site. -/
theorem find_spec_len {p : List Nat} (hp : UFok p) {i : Nat}
    (hi : i < p.length) :
    (find p.length p i).2 = rootD p i ∧
    (find p.length p i).1.length = p.length ∧
    UFok (find p.length p i).1 ∧
    ∀ x, x < p.length → rootD (find p.length p i).1 x = rootD p x := by
  obtain ⟨m, hm⟩ := minDepth_exists (hp.2 i hi)
  exact find_spec hp hi hm (le_of_lt (minDepth_lt_length hp hi hm))

/-- Specification of `union`: well-formedness and length are preserved,
and the class of `rootD p i` is redirected to `rootD p j`. -/
theorem union_spec {p : List Nat} (hp : UFok p) {i j : Nat}
    (hi : i < p.length) (hj : j < p.length) :
    UFok (union p i j) ∧ (union p i j).length = p.length ∧
    ∀ x, x < p.length → rootD (union p i j) x =
      (if rootD p x = rootD p i then rootD p j else rootD p x) := by
  obtain ⟨hfi2, hfi1len, hfi1ok, hfi1pres⟩ := find_spec_len hp hi
  set p1 := (find p.length p i).1 with hp1
  have hj1 : j < p1.length := by rw [hfi1len]; exact hj
  obtain ⟨hfj2, hfj1len, hfj1ok, hfj1pres⟩ := find_spec_len hfi1ok hj1
  have hlenfix : p1.length = p.length := hfi1len
  set p2 := (find p1.length p1 j).1 with hp2
  have hp2len : p2.length = p.length := by rw [hfj1len, hfi1len]
  have hp2pres : ∀ x, x < p.length → rootD p2 x = rootD p x := by
    intro x hx
    rw [hfj1pres x (by rw [hfi1len]; exact hx), hfi1pres x hx]
  have hri : (find p.length p i).2 = rootD p i := hfi2
  have hrj : (find p1.length p1 j).2 = rootD p j := by
    rw [hfj2, hfi1pres j hj]
  have hunion : union p i j =
      (if rootD p i ≠ rootD p j then p2.set (rootD p i) (rootD p j) else p2) := by
    simp only [union]
    rw [← hp1, ← hp2, hri, hrj]
  by_cases hne : rootD p i = rootD p j
  · rw [hunion, if_neg (by simpa using hne)]
    refine ⟨hfj1ok, hp2len, fun x hx => ?_⟩
    rw [hp2pres x hx, hne]
    by_cases hcase : rootD p x = rootD p j
    · rw [if_pos hcase, hcase]
    · rw [if_neg hcase]
  · have hrilt : rootD p i < p2.length := by rw [hp2len]; exact rootD_lt hp hi
    have hrjlt : rootD p j < p2.length := by rw [hp2len]; exact rootD_lt hp hj
    have hrooti2 : isRootP p2 (rootD p i) := by
      apply rootD_eq_self_isRoot hfj1ok hrilt
      rw [hp2pres _ (rootD_lt hp hi), rootD_idem hp hi]
    have hrootj2 : isRootP p2 (rootD p j) := by
      apply rootD_eq_self_isRoot hfj1ok hrjlt
      rw [hp2pres _ (rootD_lt hp hj), rootD_idem hp hj]
    obtain ⟨hok, hlen, hform⟩ :=
      set_link hfj1ok hrilt hrjlt hrooti2 hrootj2 hne
    rw [hunion, if_pos (by simpa using hne)]
    refine ⟨hok, by rw [hlen, hp2len], fun x hx => ?_⟩
    rw [hform x (by rw [hp2len]; exact hx), hp2pres x hx]

theorem unionLoop_eq_pairFold (dom : Nat → Nat → Bool) (n : Nat)
    (p : List Nat) : unionLoop dom n p = pairFold dom p (allPairs n) := by
  unfold unionLoop pairFold allPairs
  rw [List.flatMap_def, List.foldl_flatten, List.foldl_map]
  congr 1
  funext q i
  rw [List.foldl_map]

theorem mem_allPairs {n a b : Nat} :
    (a, b) ∈ allPairs n ↔ a < n ∧ b < n := by
  simp only [allPairs, List.mem_flatMap, List.mem_map, List.mem_range]
  constructor
  · rintro ⟨i, hi, j, hj, heq⟩
    rw [Prod.mk.injEq] at heq
    exact ⟨heq.1 ▸ hi, heq.2 ▸ hj⟩
  · rintro ⟨ha, hb⟩
    exact ⟨a, ha, b, hb, rfl⟩

theorem CRel_mono {E E' : Nat → Nat → Prop} (h : ∀ x y, E x y → E' x y) :
    ∀ {x y : Nat}, CRel E x y → CRel E' x y := by
  intro x y hxy
  induction hxy with
  | base hb => exact .base (h _ _ hb)
  | refl x => exact .refl x
  | symm _ ih => exact .symm ih
  | trans _ _ ih1 ih2 => exact .trans ih1 ih2

theorem CRel_congr {E E' : Nat → Nat → Prop} (h : ∀ x y, E x y ↔ E' x y)
    (x y : Nat) : CRel E x y ↔ CRel E' x y :=
  ⟨CRel_mono (fun a b => (h a b).mp), CRel_mono (fun a b => (h a b).mpr)⟩

theorem CRel_nil_iff (dom : Nat → Nat → Bool) (x y : Nat) :
    CRel (ERel dom []) x y ↔ x = y := by
  constructor
  · intro h
    induction h with
    | base hb => exact absurd hb.1 (List.not_mem_nil _)
    | refl x => rfl
    | symm _ ih => exact ih.symm
    | trans _ _ ih1 ih2 => exact ih1.trans ih2
  · rintro rfl
    exact .refl x

theorem pstep_range (n i : Nat) : pstep (List.range n) i = i := by
  unfold pstep
  rw [List.getD_eq_getElem?_getD]
  rcases Nat.lt_or_ge i n with h | h
  · rw [List.getElem?_range h]; rfl
  · rw [List.getElem?_eq_none (by simpa using h)]; rfl

theorem loopInv_init (dom : Nat → Nat → Bool) (n : Nat) :
    LoopInv dom n (List.range n) [] := by
  have hroot : ∀ i, isRootP (List.range n) i := fun i => pstep_range n i
  have hok : UFok (List.range n) := by
    constructor
    · intro i hi
      rw [pstep_range]
      simpa using hi
    · intro i _
      exact ⟨0, hroot i⟩
  refine ⟨hok, List.length_range n, fun e he => absurd he (List.not_mem_nil e),
    fun x y _ _ => ?_⟩
  rw [rootD_of_isRoot (hroot x), rootD_of_isRoot (hroot y), CRel_nil_iff]

/-- Degenerate loop steps (diagonal pair, or criterion false) add an
edge that contributes nothing to the generated equivalence. -/
theorem ERel_snoc_degenerate {dom : Nat → Nat → Bool}
    {L : List (Nat × Nat)} {i j : Nat}
    (hdeg : i = j ∨ dom i j = false) (a b : Nat) :
    ERel dom (L ++ [(i, j)]) a b ↔ ERel dom L a b := by
  unfold ERel
  simp only [List.mem_append, List.mem_singleton]
  constructor
  · rintro ⟨hab | hab, hne, hdom⟩
    · exact ⟨hab, hne, hdom⟩
    · rw [Prod.mk.injEq] at hab
      obtain ⟨rfl, rfl⟩ := hab
      rcases hdeg with rfl | hfalse
      · exact absurd rfl hne
      · rw [hdom] at hfalse; cases hfalse
  · rintro ⟨hab, hne, hdom⟩
    exact ⟨Or.inl hab, hne, hdom⟩

/-- One iteration of the merge loop preserves the invariant, recording
the visited pair. -/
theorem pairStep_inv {dom : Nat → Nat → Bool} {n : Nat} {p : List Nat}
    {L : List (Nat × Nat)} (h : LoopInv dom n p L) {i j : Nat}
    (hi : i < n) (hj : j < n) :
    LoopInv dom n (pairStep dom p i j) (L ++ [(i, j)]) := by
  obtain ⟨hok, hlen, hL, hiff⟩ := h
  have hLnew : ∀ e ∈ L ++ [(i, j)], e.1 < n ∧ e.2 < n := by
    intro e he
    rcases List.mem_append.mp he with he | he
    · exact hL e he
    · rw [List.mem_singleton] at he
      subst he
      exact ⟨hi, hj⟩
  by_cases hij : i = j
  · have hstep : pairStep dom p i j = p := by simp [pairStep, hij]
    rw [hstep]
    refine ⟨hok, hlen, hLnew, fun x y hx hy => ?_⟩
    rw [hiff x y hx hy]
    exact CRel_congr (fun a b => (ERel_snoc_degenerate (Or.inl hij) a b).symm) x y
  · by_cases hdom : dom i j
    · -- a union is performed
      have hstep : pairStep dom p i j = union p i j := by
        simp [pairStep, hij, hdom]
      have hi' : i < p.length := by rw [hlen]; exact hi
      have hj' : j < p.length := by rw [hlen]; exact hj
      obtain ⟨hok', hlen', hform⟩ := union_spec hok hi' hj'
      rw [hstep]
      have hmono : ∀ a b, ERel dom L a b → ERel dom (L ++ [(i, j)]) a b := by
        intro a b ⟨hm, hne, hd⟩
        exact ⟨List.mem_append.mpr (Or.inl hm), hne, hd⟩
      have hedge : ERel dom (L ++ [(i, j)]) i j :=
        ⟨List.mem_append.mpr (Or.inr (List.mem_singleton.mpr rfl)), hij, hdom⟩
      have hrootj_form : rootD (union p i j) j = rootD p j := by
        rw [hform j hj']
        by_cases hcase : rootD p j = rootD p i
        · rw [if_pos hcase, hcase]
        · rw [if_neg hcase]
      have hrooti_form : rootD (union p i j) i = rootD p j := by
        rw [hform i hi', if_pos rfl]
      refine ⟨hok', by rw [hlen', hlen], hLnew, fun x y hx hy => ?_⟩
      constructor
      · -- equal new roots means connected with the new edge allowed
        intro heq
        have hx' : x < p.length := by rw [hlen]; exact hx
        have hy' : y < p.length := by rw [hlen]; exact hy
        rw [hform x hx', hform y hy'] at heq
        by_cases hxc : rootD p x = rootD p i <;>
          by_cases hyc : rootD p y = rootD p i
        · -- both in the moved class: already connected before the union
          have h1 : CRel (ERel dom L) x i :=
            (hiff x i hx hi).mp (by rw [hxc])
          have h2 : CRel (ERel dom L) y i :=
            (hiff y i hy hi).mp (by rw [hyc])
          exact CRel_mono hmono (h1.trans h2.symm)
        · -- x moved, y kept: x ~ i, edge (i,j), j ~ y
          rw [if_pos hxc, if_neg hyc] at heq
          have h1 : CRel (ERel dom L) x i := (hiff x i hx hi).mp (by rw [hxc])
          have h2 : CRel (ERel dom L) j y :=
            (hiff j y hj hy).mp heq
          exact (CRel_mono hmono h1).trans
            ((CRel.base hedge).trans (CRel_mono hmono h2))
        · rw [if_neg hxc, if_pos hyc] at heq
          have h1 : CRel (ERel dom L) y i := (hiff y i hy hi).mp (by rw [hyc])
          have h2 : CRel (ERel dom L) x j := (hiff x j hx hj).mp heq
          exact (CRel_mono hmono h2).trans
            ((CRel.base hedge).symm.trans (CRel_mono hmono h1.symm))
        · rw [if_neg hxc, if_neg hyc] at heq
          exact CRel_mono hmono ((hiff x y hx hy).mp heq)
      · -- connectivity with the new edge implies equal new roots
        intro hcon
        have key : ∀ {a b : Nat}, CRel (ERel dom (L ++ [(i, j)])) a b →
            a = b ∨ (a < n ∧ b < n ∧
              rootD (union p i j) a = rootD (union p i j) b) := by
          intro a b hab
          induction hab with
          | @base u v hb =>
            rcases (List.mem_append.mp hb.1) with hm | hm
            · -- an old edge: roots were already equal, and stay equal
              have hbounds := hL _ hm
              have hold : rootD p u = rootD p v :=
                (hiff u v hbounds.1 hbounds.2).mpr (CRel.base ⟨hm, hb.2⟩)
              refine Or.inr ⟨hbounds.1, hbounds.2, ?_⟩
              rw [hform u (by rw [hlen]; exact hbounds.1),
                hform v (by rw [hlen]; exact hbounds.2), hold]
            · rw [List.mem_singleton, Prod.mk.injEq] at hm
              obtain ⟨rfl, rfl⟩ := hm
              exact Or.inr ⟨hi, hj, by rw [hrooti_form, hrootj_form]⟩
          | refl x => exact Or.inl rfl
          | symm _ ih =>
            rcases ih with rfl | ⟨h1, h2, h3⟩
            · exact Or.inl rfl
            · exact Or.inr ⟨h2, h1, h3.symm⟩
          | trans _ _ ih1 ih2 =>
            rcases ih1 with rfl | ⟨ha, hb, hab⟩
            · exact ih2
            · rcases ih2 with rfl | ⟨hb', hc, hbc⟩
              · exact Or.inr ⟨ha, hb, hab⟩
              · exact Or.inr ⟨ha, hc, hab.trans hbc⟩
        rcases key hcon with rfl | ⟨_, _, h3⟩
        · rfl
        · exact h3
    · have hstep : pairStep dom p i j = p := by
        simp [pairStep, hij, hdom]
      rw [hstep]
      refine ⟨hok, hlen, hLnew, fun x y hx hy => ?_⟩
      rw [hiff x y hx hy]
      exact CRel_congr (fun a b =>
        (ERel_snoc_degenerate (Or.inr (by simpa using hdom)) a b).symm) x y

theorem pairFold_inv {dom : Nat → Nat → Bool} {n : Nat} :
    ∀ (L' : List (Nat × Nat)) {p : List Nat} {L : List (Nat × Nat)},
    LoopInv dom n p L → (∀ e ∈ L', e.1 < n ∧ e.2 < n) →
    LoopInv dom n (pairFold dom p L') (L ++ L') := by
  intro L'
  induction L' with
  | nil =>
    intro p L h _
    simpa [pairFold] using h
  | cons e L' ih =>
    intro p L h hb
    have hstep := pairStep_inv h (hb e (List.mem_cons_self e L')).1
      (hb e (List.mem_cons_self e L')).2
    have hrest := ih hstep (fun e' he' => hb e' (List.mem_cons_of_mem e he'))
    have hassoc : (L ++ [(e.1, e.2)]) ++ L' = L ++ e :: L' := by simp
    rw [hassoc] at hrest
    simpa [pairFold] using hrest

/-- The combined specification of the merge loop starting from
`parent = list(range(n))`: the final parent list is well-formed, of
length `n`, and its root partition is exactly the equivalence generated
by the dominance edges. -/
theorem unionLoop_spec (dom : Nat → Nat → Bool) (n : Nat) :
    UFok (unionLoop dom n (List.range n)) ∧
    (unionLoop dom n (List.range n)).length = n ∧
    ∀ x y, x < n → y < n →
      (rootD (unionLoop dom n (List.range n)) x =
        rootD (unionLoop dom n (List.range n)) y ↔
        CRel (fun a b => a < n ∧ b < n ∧ a ≠ b ∧ dom a b = true) x y) := by
  have hpairs : ∀ e ∈ allPairs n, e.1 < n ∧ e.2 < n := by
    intro e he
    cases e with
    | mk a b => exact mem_allPairs.mp he
  have h := pairFold_inv (allPairs n) (loopInv_init dom n) hpairs
  rw [List.nil_append, ← unionLoop_eq_pairFold] at h
  obtain ⟨hok, hlen, _, hiff⟩ := h
  refine ⟨hok, hlen, fun x y hx hy => ?_⟩
  rw [hiff x y hx hy]
  apply CRel_congr
  intro a b
  unfold ERel
  constructor
  · rintro ⟨hmem, hne, hdom⟩
    have := mem_allPairs.mp hmem
    exact ⟨this.1, this.2, hne, hdom⟩
  · rintro ⟨ha, hb, hne, hdom⟩
    exact ⟨mem_allPairs.mpr ⟨ha, hb⟩, hne, hdom⟩


theorem dictAppend_cons (k0 : Int) (vs0 : List Int)
    (rest : List (Int × List Int)) (k v : Int) :
    dictAppend ((k0, vs0) :: rest) k v =
      if k0 = k then (k0, vs0 ++ [v]) :: rest
      else (k0, vs0) :: dictAppend rest k v := rfl

theorem dlookup_cons (k0 : Int) (vs0 : List Int)
    (rest : List (Int × List Int)) (k : Int) :
    dlookup ((k0, vs0) :: rest) k =
      if k0 = k then some vs0 else dlookup rest k := rfl

theorem dlookup_dictAppend (d : List (Int × List Int)) (k v k' : Int) :
    dlookup (dictAppend d k v) k' =
      if k' = k then some ((dlookup d k).getD [] ++ [v])
      else dlookup d k' := by
  induction d with
  | nil =>
    show dlookup [(k, [v])] k' = _
    rw [dlookup_cons]
    by_cases h : k' = k
    · subst h
      simp [dlookup]
    · have h' : ¬ k = k' := fun hh => h hh.symm
      simp [dlookup, h, h']
  | cons e rest ih =>
    obtain ⟨k0, vs0⟩ := e
    rw [dictAppend_cons]
    by_cases h0 : k0 = k
    · subst h0
      by_cases h1 : k' = k0
      · subst h1
        simp [dlookup_cons]
      · have h1' : ¬ k0 = k' := fun hh => h1 hh.symm
        simp [dlookup_cons, h1, h1']
    · by_cases h1 : k0 = k'
      · subst h1
        have hkk : ¬ k0 = k := h0
        simp [dlookup_cons, hkk]
      · simp [dlookup_cons, h0, h1, ih]

theorem dkeys_cons (k0 : Int) (vs0 : List Int)
    (rest : List (Int × List Int)) :
    dkeys ((k0, vs0) :: rest) = k0 :: dkeys rest := rfl

theorem dkeys_dictAppend (d : List (Int × List Int)) (k v : Int) :
    dkeys (dictAppend d k v) =
      if k ∈ dkeys d then dkeys d else dkeys d ++ [k] := by
  induction d with
  | nil => simp [dictAppend, dkeys]
  | cons e rest ih =>
    obtain ⟨k0, vs0⟩ := e
    rw [dictAppend_cons]
    by_cases h0 : k0 = k
    · subst h0
      rw [if_pos rfl, dkeys_cons, dkeys_cons,
        if_pos (List.mem_cons_self k0 (dkeys rest))]
    · rw [if_neg h0, dkeys_cons, dkeys_cons, ih]
      by_cases h1 : k ∈ dkeys rest
      · rw [if_pos h1, if_pos (List.mem_cons_of_mem k0 h1)]
      · rw [if_neg h1, if_neg (by
          rw [List.mem_cons]
          rintro (h | h)
          · exact h0 h.symm
          · exact h1 h)]
        rfl

theorem dkeys_nodup_dictAppend {d : List (Int × List Int)} (k v : Int)
    (h : (dkeys d).Nodup) : (dkeys (dictAppend d k v)).Nodup := by
  rw [dkeys_dictAppend]
  by_cases hk : k ∈ dkeys d
  · rw [if_pos hk]; exact h
  · rw [if_neg hk, List.nodup_append]
    refine ⟨h, List.nodup_singleton k, ?_⟩
    intro a ha hb
    rw [List.mem_singleton] at hb
    subst hb
    exact hk ha

theorem dlookup_of_mem {d : List (Int × List Int)}
    (hd : (dkeys d).Nodup) {k : Int} {vs : List Int} (h : (k, vs) ∈ d) :
    dlookup d k = some vs := by
  induction d with
  | nil => cases h
  | cons e rest ih =>
    obtain ⟨k0, vs0⟩ := e
    rw [dlookup_cons]
    rcases List.mem_cons.mp h with heq | h
    · rw [Prod.mk.injEq] at heq
      obtain ⟨rfl, rfl⟩ := heq
      rw [if_pos rfl]
    · have hne : k0 ≠ k := by
        intro heq
        have hkmem : k ∈ dkeys rest := by
          simp only [dkeys, List.mem_map]
          exact ⟨(k, vs), h, rfl⟩
        rw [dkeys_cons] at hd
        rw [heq] at hd
        exact (List.nodup_cons.mp hd).1 hkmem
      rw [if_neg hne]
      exact ih (by rw [dkeys_cons] at hd; exact (List.nodup_cons.mp hd).2) h

theorem mem_of_dlookup {d : List (Int × List Int)} {k : Int} {vs : List Int}
    (h : dlookup d k = some vs) : (k, vs) ∈ d := by
  induction d with
  | nil => cases h
  | cons e rest ih =>
    obtain ⟨k0, vs0⟩ := e
    rw [dlookup_cons] at h
    by_cases h0 : k0 = k
    · rw [if_pos h0] at h
      cases h
      subst h0
      exact List.mem_cons_self _ _
    · rw [if_neg h0] at h
      exact List.mem_cons_of_mem _ (ih h)

theorem dlookup_isSome_of_mem_dkeys {d : List (Int × List Int)} {k : Int}
    (h : k ∈ dkeys d) : ∃ vs, dlookup d k = some vs := by
  induction d with
  | nil => cases h
  | cons e rest ih =>
    obtain ⟨k0, vs0⟩ := e
    rw [dlookup_cons]
    by_cases h0 : k0 = k
    · exact ⟨vs0, if_pos h0⟩
    · rw [dkeys_cons, List.mem_cons] at h
      rcases h with h | h
      · exact absurd h.symm h0
      · obtain ⟨vs, hvs⟩ := ih h
        exact ⟨vs, by rw [if_neg h0]; exact hvs⟩

theorem join_dictAppend (d : List (Int × List Int)) (k v : Int) :
    ((dictAppend d k v).map (·.2)).flatten.Perm
      ((d.map (·.2)).flatten ++ [v]) := by
  induction d with
  | nil => simp [dictAppend]
  | cons e rest ih =>
    obtain ⟨k0, vs0⟩ := e
    rw [dictAppend_cons]
    by_cases h0 : k0 = k
    · rw [if_pos h0]
      simp only [List.map_cons, List.flatten_cons]
      rw [List.append_assoc, List.append_assoc]
      exact List.Perm.append_left vs0 List.perm_append_comm
    · rw [if_neg h0]
      simp only [List.map_cons, List.flatten_cons]
      rw [List.append_assoc]
      exact List.Perm.append_left vs0 ih

theorem buildDict_snoc (kvs : List (Int × Int)) (kv : Int × Int) :
    buildDict (kvs ++ [kv]) = dictAppend (buildDict kvs) kv.1 kv.2 := by
  unfold buildDict
  rw [List.foldl_append]
  rfl

theorem bucket_snoc (kvs : List (Int × Int)) (kv : Int × Int) (k : Int) :
    bucket (kvs ++ [kv]) k =
      bucket kvs k ++ (if kv.1 = k then [kv.2] else []) := by
  unfold bucket
  rw [List.filter_append, List.map_append]
  congr 1
  by_cases h : kv.1 = k
  · simp [h]
  · simp [h]

theorem dlookup_buildDict (kvs : List (Int × Int)) (k : Int) :
    dlookup (buildDict kvs) k =
      if bucket kvs k = [] then none else some (bucket kvs k) := by
  induction kvs using List.reverseRecOn with
  | nil => simp [buildDict, bucket, dlookup]
  | append_singleton kvs kv ih =>
    rw [buildDict_snoc, dlookup_dictAppend, bucket_snoc]
    by_cases h : k = kv.1
    · rw [← h]
      have h2 : (if k = k then [kv.2] else ([] : List Int)) = [kv.2] :=
        if_pos rfl
      rw [h2, if_pos rfl, ih]
      have hne : bucket kvs k ++ [kv.2] ≠ [] := by simp
      rw [if_neg hne]
      by_cases hb : bucket kvs k = []
      · rw [if_pos hb, hb]; rfl
      · rw [if_neg hb]; rfl
    · rw [if_neg h, ih]
      have h3 : (if kv.1 = k then [kv.2] else ([] : List Int)) = [] :=
        if_neg (fun hh => h hh.symm)
      rw [h3, List.append_nil]

theorem mem_dkeys_buildDict (kvs : List (Int × Int)) (k : Int) :
    k ∈ dkeys (buildDict kvs) ↔ bucket kvs k ≠ [] := by
  constructor
  · intro h
    obtain ⟨vs, hvs⟩ := dlookup_isSome_of_mem_dkeys h
    rw [dlookup_buildDict] at hvs
    intro hb
    rw [if_pos hb] at hvs
    cases hvs
  · intro h
    have : dlookup (buildDict kvs) k = some (bucket kvs k) := by
      rw [dlookup_buildDict, if_neg h]
    have hm := mem_of_dlookup this
    simp only [dkeys, List.mem_map]
    exact ⟨(k, bucket kvs k), hm, rfl⟩

theorem dkeys_buildDict_nodup (kvs : List (Int × Int)) :
    (dkeys (buildDict kvs)).Nodup := by
  induction kvs using List.reverseRecOn with
  | nil => simp [buildDict, dkeys]
  | append_singleton kvs kv ih =>
    rw [buildDict_snoc]
    exact dkeys_nodup_dictAppend kv.1 kv.2 ih

theorem mem_buildDict_iff (kvs : List (Int × Int)) (km : Int × List Int) :
    km ∈ buildDict kvs ↔
      bucket kvs km.1 ≠ [] ∧ km.2 = bucket kvs km.1 := by
  obtain ⟨k, ms⟩ := km
  constructor
  · intro h
    have hlook := dlookup_of_mem (dkeys_buildDict_nodup kvs) h
    rw [dlookup_buildDict] at hlook
    by_cases hb : bucket kvs k = []
    · rw [if_pos hb] at hlook; cases hlook
    · rw [if_neg hb] at hlook
      cases hlook
      exact ⟨hb, rfl⟩
  · rintro ⟨hne, hval⟩
    have hlook : dlookup (buildDict kvs) k = some ms := by
      rw [dlookup_buildDict, if_neg (by simpa using hne)]
      simp only at hval
      rw [hval]
    exact mem_of_dlookup hlook

theorem join_buildDict (kvs : List (Int × Int)) :
    ((buildDict kvs).map (·.2)).flatten.Perm (kvs.map (·.2)) := by
  induction kvs using List.reverseRecOn with
  | nil => simp [buildDict]
  | append_singleton kvs kv ih =>
    rw [buildDict_snoc]
    refine (join_dictAppend (buildDict kvs) kv.1 kv.2).trans ?_
    rw [List.map_append]
    exact List.Perm.append ih (List.Perm.refl _)

theorem groupFold_dict (ids : List Int) :
    ∀ (L : List Nat) {p : List Nat} (d : List (Int × List Int)),
    UFok p → (∀ idx ∈ L, idx < p.length) →
    (L.foldl (groupStep ids) (p, d)).2 =
      L.foldl (fun d idx =>
        dictAppend d (ids.getD (rootD p idx) 0) (ids.getD idx 0)) d := by
  intro L
  induction L with
  | nil => intro p d _ _; rfl
  | cons idx L ih =>
    intro p d hok hb
    have hidx := hb idx (List.mem_cons_self idx L)
    obtain ⟨hf2, hflen, hfok, hfpres⟩ := find_spec_len hok hidx
    have hstep : groupStep ids (p, d) idx =
        ((find p.length p idx).1,
          dictAppend d (ids.getD (rootD p idx) 0) (ids.getD idx 0)) := by
      simp only [groupStep]
      rw [hf2]
    show (L.foldl (groupStep ids) (groupStep ids (p, d) idx)).2 = _
    rw [hstep,
      ih _ hfok (fun i hi => by
        rw [hflen]; exact hb i (List.mem_cons_of_mem idx hi))]
    apply List.foldl_ext
    intro d' x hx
    rw [hfpres x (hb x (List.mem_cons_of_mem idx hx))]

theorem umbrella_clusters_fst (gs : List GaussDyn) (h : gs.length ≠ 0) :
    (umbrella_clusters_with_roots gs).1 = buildDict (clusterKVs gs) := by
  obtain ⟨hok, hlen, _⟩ := unionLoop_spec (umbrellaDom gs) gs.length
  simp only [umbrella_clusters_with_roots]
  rw [if_neg h]
  show ((List.range gs.length).foldl (groupStep (gs.map (·.id)))
    (unionLoop (umbrellaDom gs) gs.length (List.range gs.length), [])).2 = _
  rw [groupFold_dict (gs.map (·.id)) (List.range gs.length) []
    hok (fun idx hidx => by
      rw [hlen]
      exact List.mem_range.mp hidx)]
  unfold buildDict clusterKVs
  rw [List.foldl_map]
  rfl

theorem umbrella_clusters_snd (gs : List GaussDyn) (h : gs.length ≠ 0) :
    (umbrella_clusters_with_roots gs).2 =
      (umbrella_clusters_with_roots gs).1.map (·.2) := by
  simp only [umbrella_clusters_with_roots]
  rw [if_neg h]

theorem idAt_getD (gs : List GaussDyn) {i : Nat}
    (h : i < (gs.map (·.id)).length) :
    idAt gs i = (gs.map (·.id))[i] := by
  unfold idAt
  rw [List.getD_eq_getElem?_getD,
    List.getElem?_eq_getElem (by simpa using h)]
  rfl

theorem idAt_inj (gs : List GaussDyn) (hids : (gs.map (·.id)).Nodup)
    {a b : Nat} (ha : a < gs.length) (hb : b < gs.length)
    (h : idAt gs a = idAt gs b) : a = b := by
  rw [idAt_getD gs (by simpa using ha), idAt_getD gs (by simpa using hb)] at h
  exact (List.Nodup.getElem_inj_iff hids).mp h

theorem map_idAt_range (gs : List GaussDyn) :
    (List.range gs.length).map (fun i => idAt gs i) = gs.map (·.id) := by
  apply List.ext_getElem
  · simp
  · intro i h1 h2
    rw [List.getElem_map, List.getElem_range,
      idAt_getD gs (by simpa using h2)]

theorem mem_bucket_clusterKVs (gs : List GaussDyn) (k x : Int) :
    x ∈ bucket (clusterKVs gs) k ↔
      ∃ idx, idx < gs.length ∧ idAt gs idx = x ∧
        idAt gs (rootD (umbrellaParent gs) idx) = k := by
  unfold bucket clusterKVs
  constructor
  · intro h
    rw [List.mem_map] at h
    obtain ⟨kv, hkv, hx⟩ := h
    rw [List.mem_filter] at hkv
    obtain ⟨hmem, hkey⟩ := hkv
    rw [List.mem_map] at hmem
    obtain ⟨idx, hidx, hkveq⟩ := hmem
    rw [List.mem_range] at hidx
    refine ⟨idx, hidx, ?_, ?_⟩
    · rw [← hx, ← hkveq]
    · rw [beq_iff_eq] at hkey
      rw [← hkey, ← hkveq]
  · rintro ⟨idx, hidx, hx, hk⟩
    rw [List.mem_map]
    refine ⟨(idAt gs (rootD (umbrellaParent gs) idx), idAt gs idx),
      ?_, hx⟩
    rw [List.mem_filter]
    constructor
    · rw [List.mem_map]
      exact ⟨idx, List.mem_range.mpr hidx, rfl⟩
    · rw [beq_iff_eq]
      exact hk

theorem umbrellaParent_spec (gs : List GaussDyn) :
    UFok (umbrellaParent gs) ∧ (umbrellaParent gs).length = gs.length ∧
    ∀ a b, a < gs.length → b < gs.length →
      (rootD (umbrellaParent gs) a = rootD (umbrellaParent gs) b ↔
        CRel (umbrellaEdge gs) a b) := by
  unfold umbrellaParent
  obtain ⟨hok, hlen, hiff⟩ := unionLoop_spec (umbrellaDom gs) gs.length
  refine ⟨hok, hlen, fun a b ha hb => ?_⟩
  rw [hiff a b ha hb]
  apply CRel_congr
  intro u v
  unfold umbrellaDom umbrellaEdge
  simp only [decide_eq_true_eq]

theorem rootD_umbrellaParent_lt (gs : List GaussDyn) {a : Nat}
    (ha : a < gs.length) : rootD (umbrellaParent gs) a < gs.length := by
  obtain ⟨hok, hlen, _⟩ := umbrellaParent_spec gs
  have := rootD_lt hok (i := a) (by rw [hlen]; exact ha)
  rwa [hlen] at this

theorem sameCluster_iff_rootD (gs : List GaussDyn) (hn : gs.length ≠ 0)
    (hids : (gs.map (·.id)).Nodup) {a b : Nat}
    (ha : a < gs.length) (hb : b < gs.length) :
    sameCluster (umbrella_clusters_with_roots gs).1 (idAt gs a) (idAt gs b)
      ↔ rootD (umbrellaParent gs) a = rootD (umbrellaParent gs) b := by
  rw [umbrella_clusters_fst gs hn]
  unfold sameCluster
  constructor
  · rintro ⟨km, hkm, hxa, hxb⟩
    rw [mem_buildDict_iff] at hkm
    obtain ⟨hne, hval⟩ := hkm
    rw [hval, mem_bucket_clusterKVs] at hxa hxb
    obtain ⟨ia, hia, hida, hka⟩ := hxa
    obtain ⟨ib, hib, hidb, hkb⟩ := hxb
    have ha' : ia = a := idAt_inj gs hids hia ha hida
    have hb' : ib = b := idAt_inj gs hids hib hb hidb
    subst ha'
    subst hb'
    exact idAt_inj gs hids (rootD_umbrellaParent_lt gs hia)
      (rootD_umbrellaParent_lt gs hib) (hka.trans hkb.symm)
  · intro h
    have hmema : idAt gs a ∈
        bucket (clusterKVs gs) (idAt gs (rootD (umbrellaParent gs) a)) :=
      (mem_bucket_clusterKVs gs _ _).mpr ⟨a, ha, rfl, rfl⟩
    have hmemb : idAt gs b ∈
        bucket (clusterKVs gs) (idAt gs (rootD (umbrellaParent gs) a)) :=
      (mem_bucket_clusterKVs gs _ _).mpr ⟨b, hb, rfl, by rw [h]⟩
    refine ⟨(idAt gs (rootD (umbrellaParent gs) a),
      bucket (clusterKVs gs) (idAt gs (rootD (umbrellaParent gs) a))),
      ?_, hmema, hmemb⟩
    rw [mem_buildDict_iff]
    refine ⟨?_, rfl⟩
    intro h0
    rw [h0] at hmema
    cases hmema

theorem clusters_key_mem (gs : List GaussDyn) (hn : gs.length ≠ 0) :
    ∀ km ∈ (umbrella_clusters_with_roots gs).1, km.1 ∈ km.2 := by
  intro km hkm
  rw [umbrella_clusters_fst gs hn, mem_buildDict_iff] at hkm
  obtain ⟨hne, hval⟩ := hkm
  obtain ⟨x, hx⟩ : ∃ x, x ∈ bucket (clusterKVs gs) km.1 := by
    cases hbk : bucket (clusterKVs gs) km.1 with
    | nil => exact absurd hbk hne
    | cons y ys => exact ⟨y, List.mem_cons_self y ys⟩
  rw [mem_bucket_clusterKVs] at hx
  obtain ⟨idx, hidx, _, hkey⟩ := hx
  obtain ⟨hok, hlen, _⟩ := umbrellaParent_spec gs
  have hrlt : rootD (umbrellaParent gs) idx < gs.length :=
    rootD_umbrellaParent_lt gs hidx
  have hrr : rootD (umbrellaParent gs) (rootD (umbrellaParent gs) idx) =
      rootD (umbrellaParent gs) idx :=
    rootD_idem hok (by rw [hlen]; exact hidx)
  rw [hval]
  exact (mem_bucket_clusterKVs gs _ _).mpr
    ⟨rootD (umbrellaParent gs) idx, hrlt, hkey, by rw [hrr]; exact hkey⟩

theorem clusters_join_perm (gs : List GaussDyn) (hn : gs.length ≠ 0) :
    (((umbrella_clusters_with_roots gs).1.map (·.2)).flatten).Perm
      (gs.map (·.id)) := by
  rw [umbrella_clusters_fst gs hn]
  refine (join_buildDict (clusterKVs gs)).trans ?_
  rw [show (clusterKVs gs).map (·.2) =
      (List.range gs.length).map (fun idx => idAt gs idx) by
    unfold clusterKVs
    rw [List.map_map]
    rfl]
  rw [map_idAt_range]

theorem clusters_nonempty (gs : List GaussDyn) (hn : gs.length ≠ 0) :
    ∀ km ∈ (umbrella_clusters_with_roots gs).1, km.2 ≠ [] := by
  intro km hkm
  rw [umbrella_clusters_fst gs hn, mem_buildDict_iff] at hkm
  rw [hkm.2]
  exact hkm.1

theorem clusters_disjoint (gs : List GaussDyn) (hn : gs.length ≠ 0)
    (hids : (gs.map (·.id)).Nodup) :
    ∀ km1 km2, km1 ∈ (umbrella_clusters_with_roots gs).1 →
      km2 ∈ (umbrella_clusters_with_roots gs).1 →
      ∀ x, x ∈ km1.2 → x ∈ km2.2 → km1 = km2 := by
  intro km1 km2 h1 h2 x hx1 hx2
  rw [umbrella_clusters_fst gs hn, mem_buildDict_iff] at h1 h2
  obtain ⟨hne1, hval1⟩ := h1
  obtain ⟨hne2, hval2⟩ := h2
  rw [hval1, mem_bucket_clusterKVs] at hx1
  rw [hval2, mem_bucket_clusterKVs] at hx2
  obtain ⟨i1, hi1, hid1, hk1⟩ := hx1
  obtain ⟨i2, hi2, hid2, hk2⟩ := hx2
  have : i1 = i2 := idAt_inj gs hids hi1 hi2 (hid1.trans hid2.symm)
  subst this
  have hkeq : km1.1 = km2.1 := hk1.symm.trans hk2
  have hveq : km1.2 = km2.2 := by rw [hval1, hval2, hkeq]
  exact Prod.ext hkeq hveq

/-- C1: for every list of sources with positive variances and distinct
ids, the clusterer places the ids of indices `i` and `j` in the same
cluster exactly when `(i, j)` lies in the equivalence generated by the
dominance edges `amp_i ≤ amp_j · exp(-dist(i,j)² / (2 · var_j))`
(evaluated over all ordered pairs of distinct indices), and every
cluster is labelled by the source id of its union-find root index — a
member of the cluster itself, not a synthetic counter. -/
theorem claim_C1_dominance_clustering (gs : List GaussDyn)
    (hvar : ∀ g ∈ gs, 0 < g.var) (hids : (gs.map (·.id)).Nodup)
    (i j : Nat) (hi : i < gs.length) (hj : j < gs.length) :
    (sameCluster (umbrella_clusters_with_roots gs).1 (idAt gs i) (idAt gs j)
      ↔ CRel (umbrellaEdge gs) i j) ∧
    ∀ km ∈ (umbrella_clusters_with_roots gs).1, km.1 ∈ km.2 := by
  have hn : gs.length ≠ 0 := by omega
  obtain ⟨_, _, hiff⟩ := umbrellaParent_spec gs
  exact ⟨(sameCluster_iff_rootD gs hn hids hi hj).trans (hiff i j hi hj),
    clusters_key_mem gs hn⟩

/-- Witness for C1 at the concrete two-source scene. -/
theorem claim_C1_witness :
    sameCluster (umbrella_clusters_with_roots gsC1).1
        (idAt gsC1 0) (idAt gsC1 1) ↔ CRel (umbrellaEdge gsC1) 0 1 :=
  (claim_C1_dominance_clustering gsC1
    (by
      intro g hg
      rcases List.mem_cons.mp hg with rfl | hg
      · norm_num
      · rcases List.mem_cons.mp hg with rfl | hg
        · norm_num
        · cases hg)
    (by decide) 0 1 (by decide) (by decide)).1

/-- C10: with pairwise-distinct ids, the clusterer output is a
partition of the input ids: joined member lists are a permutation of
the ids, no member list is empty, each cluster's root id is a member of
its own list, and no id lies in two distinct clusters. -/
theorem claim_C10_partition (gs : List GaussDyn)
    (hids : (gs.map (·.id)).Nodup) :
    ((((umbrella_clusters_with_roots gs).1.map (·.2)).flatten).Perm
      (gs.map (·.id))) ∧
    (∀ km ∈ (umbrella_clusters_with_roots gs).1, km.2 ≠ []) ∧
    (∀ km ∈ (umbrella_clusters_with_roots gs).1, km.1 ∈ km.2) ∧
    (∀ km1 km2, km1 ∈ (umbrella_clusters_with_roots gs).1 →
      km2 ∈ (umbrella_clusters_with_roots gs).1 →
      ∀ x, x ∈ km1.2 → x ∈ km2.2 → km1 = km2) := by
  by_cases hn : gs.length = 0
  · have hgs : gs = [] := List.length_eq_zero.mp hn
    subst hgs
    have hempty : umbrella_clusters_with_roots [] = ([], []) := by
      simp [umbrella_clusters_with_roots]
    rw [hempty]
    refine ⟨by simp, ?_, ?_, ?_⟩
    · intro km hkm; cases hkm
    · intro km hkm; cases hkm
    · intro km1 km2 h1 _ _ _ _; cases h1
  · exact ⟨clusters_join_perm gs hn, clusters_nonempty gs hn,
      clusters_key_mem gs hn, clusters_disjoint gs hn hids⟩

/-- Witness for C10 at the concrete two-source scene. -/
theorem claim_C10_witness :
    (((umbrella_clusters_with_roots gsC1).1.map (·.2)).flatten).Perm
      (gsC1.map (·.id)) :=
  (claim_C10_partition gsC1 (by decide)).1

theorem permList_length (gs : List GaussDyn)
    (σ : Equiv.Perm (Fin gs.length)) :
    (permList gs σ).length = gs.length := by
  simp [permList]

theorem permNat_lt {n : Nat} (σ : Equiv.Perm (Fin n)) {a : Nat}
    (ha : a < n) : permNat σ a < n := by
  unfold permNat
  rw [dif_pos ha]
  exact (σ ⟨a, ha⟩).isLt

theorem permNat_ge {n : Nat} (σ : Equiv.Perm (Fin n)) {a : Nat}
    (ha : ¬ a < n) : permNat σ a = a := dif_neg ha

theorem permNat_inv {n : Nat} (σ : Equiv.Perm (Fin n)) (a : Nat) :
    permNat σ.symm (permNat σ a) = a := by
  by_cases ha : a < n
  · unfold permNat
    rw [dif_pos ha, dif_pos (σ ⟨a, ha⟩).isLt]
    have heta : (⟨(σ ⟨a, ha⟩).val, (σ ⟨a, ha⟩).isLt⟩ : Fin n) = σ ⟨a, ha⟩ :=
      rfl
    rw [heta, Equiv.symm_apply_apply]
  · rw [permNat_ge σ ha, permNat_ge σ.symm ha]

theorem permNat_inv' {n : Nat} (σ : Equiv.Perm (Fin n)) (a : Nat) :
    permNat σ (permNat σ.symm a) = a := by
  have h := permNat_inv σ.symm a
  rwa [Equiv.symm_symm] at h

theorem permList_getD_map {α : Type} (gs : List GaussDyn)
    (σ : Equiv.Perm (Fin gs.length)) (f : GaussDyn → α) (d : α) {k : Nat}
    (hk : k < gs.length) :
    ((permList gs σ).map f).getD k d = (gs.map f).getD (permNat σ k) d := by
  have hk' : k < (permList gs σ).length := by
    rw [permList_length]; exact hk
  rw [List.getD_eq_getElem?_getD,
    List.getElem?_eq_getElem (by simpa using hk'),
    List.getD_eq_getElem?_getD,
    List.getElem?_eq_getElem (by simpa using permNat_lt σ hk)]
  simp only [Option.getD_some]
  rw [List.getElem_map, List.getElem_map]
  congr 1
  unfold permList
  rw [List.getElem_ofFn]
  unfold permNat
  simp only [dif_pos hk]
  rfl

theorem idAt_perm (gs : List GaussDyn) (σ : Equiv.Perm (Fin gs.length))
    {k : Nat} (hk : k < gs.length) :
    idAt (permList gs σ) k = idAt gs (permNat σ k) :=
  permList_getD_map gs σ (·.id) 0 hk

theorem umbrellaDominates_perm (gs : List GaussDyn)
    (σ : Equiv.Perm (Fin gs.length)) {k l : Nat}
    (hk : k < gs.length) (hl : l < gs.length) :
    umbrellaDominates (permList gs σ) k l ↔
      umbrellaDominates gs (permNat σ k) (permNat σ l) := by
  simp only [umbrellaDominates]
  rw [permList_getD_map gs σ (·.x) 0 hk, permList_getD_map gs σ (·.x) 0 hl,
    permList_getD_map gs σ (·.y) 0 hk, permList_getD_map gs σ (·.y) 0 hl,
    permList_getD_map gs σ (·.amp) 0 hk,
    permList_getD_map gs σ (·.amp) 0 hl,
    permList_getD_map gs σ (·.var) 0 hl]

theorem umbrellaEdge_perm (gs : List GaussDyn)
    (σ : Equiv.Perm (Fin gs.length)) (k l : Nat) :
    umbrellaEdge (permList gs σ) k l ↔
      umbrellaEdge gs (permNat σ k) (permNat σ l) := by
  unfold umbrellaEdge
  constructor
  · rintro ⟨hk, hl, hne, hdom⟩
    rw [permList_length] at hk hl
    refine ⟨permNat_lt σ hk, permNat_lt σ hl, ?_,
      (umbrellaDominates_perm gs σ hk hl).mp hdom⟩
    intro heq
    apply hne
    have h := congrArg (permNat σ.symm) heq
    rwa [permNat_inv, permNat_inv] at h
  · rintro ⟨hk, hl, hne, hdom⟩
    have hk' : k < gs.length := by
      by_contra h
      rw [permNat_ge σ h] at hk
      exact h hk
    have hl' : l < gs.length := by
      by_contra h
      rw [permNat_ge σ h] at hl
      exact h hl
    refine ⟨by rw [permList_length]; exact hk',
      by rw [permList_length]; exact hl', ?_,
      (umbrellaDominates_perm gs σ hk' hl').mpr hdom⟩
    rintro rfl
    exact hne rfl

theorem CRel_perm_forward (gs : List GaussDyn)
    (σ : Equiv.Perm (Fin gs.length)) {k l : Nat}
    (h : CRel (umbrellaEdge (permList gs σ)) k l) :
    CRel (umbrellaEdge gs) (permNat σ k) (permNat σ l) := by
  induction h with
  | @base u v hb => exact .base ((umbrellaEdge_perm gs σ u v).mp hb)
  | refl x => exact .refl _
  | symm _ ih => exact .symm ih
  | trans _ _ ih1 ih2 => exact .trans ih1 ih2

theorem CRel_perm_backward (gs : List GaussDyn)
    (σ : Equiv.Perm (Fin gs.length)) {a b : Nat}
    (h : CRel (umbrellaEdge gs) a b) :
    CRel (umbrellaEdge (permList gs σ)) (permNat σ.symm a)
      (permNat σ.symm b) := by
  induction h with
  | @base u v hb =>
    refine .base ((umbrellaEdge_perm gs σ _ _).mpr ?_)
    rwa [permNat_inv', permNat_inv']
  | refl x => exact .refl _
  | symm _ ih => exact .symm ih
  | trans _ _ ih1 ih2 => exact .trans ih1 ih2

theorem nodup_ids_perm (gs : List GaussDyn)
    (σ : Equiv.Perm (Fin gs.length)) (hids : (gs.map (·.id)).Nodup) :
    ((permList gs σ).map (·.id)).Nodup := by
  unfold permList
  rw [List.map_ofFn, List.nodup_ofFn]
  intro k1 k2 heq
  simp only [Function.comp_apply] at heq
  have h1 : (gs.map (·.id)).get ⟨(σ k1).val, by simp [(σ k1).isLt]⟩ =
      (gs.map (·.id)).get ⟨(σ k2).val, by simp [(σ k2).isLt]⟩ := by
    simp only [List.get_eq_getElem, List.getElem_map]
    simpa [List.get_eq_getElem] using heq
  have h2 := (List.Nodup.get_inj_iff hids).mp h1
  have h3 := congrArg Fin.val h2
  exact σ.injective (Fin.ext h3)

theorem mem_ids_iff (gs : List GaussDyn) (u : Int) :
    u ∈ gs.map (·.id) ↔ ∃ a, a < gs.length ∧ idAt gs a = u := by
  constructor
  · intro h
    obtain ⟨a, ha, heq⟩ := List.getElem_of_mem h
    rw [List.length_map] at ha
    exact ⟨a, ha, by rw [idAt_getD gs (by simpa using ha)]; exact heq⟩
  · rintro ⟨a, ha, rfl⟩
    rw [idAt_getD gs (by simpa using ha)]
    exact List.getElem_mem _

theorem mem_ids_perm (gs : List GaussDyn)
    (σ : Equiv.Perm (Fin gs.length)) (u : Int) :
    u ∈ gs.map (·.id) ↔ u ∈ (permList gs σ).map (·.id) := by
  rw [mem_ids_iff, mem_ids_iff]
  constructor
  · rintro ⟨a, ha, rfl⟩
    refine ⟨permNat σ.symm a, ?_, ?_⟩
    · rw [permList_length]
      exact permNat_lt σ.symm ha
    · rw [idAt_perm gs σ (permNat_lt σ.symm ha), permNat_inv']
  · rintro ⟨k, hk, rfl⟩
    rw [permList_length] at hk
    exact ⟨permNat σ k, permNat_lt σ hk, (idAt_perm gs σ hk).symm⟩

theorem sameCluster_decomp (gs : List GaussDyn) (hn : gs.length ≠ 0)
    (hids : (gs.map (·.id)).Nodup) {u v : Int}
    (h : sameCluster (umbrella_clusters_with_roots gs).1 u v) :
    ∃ a b, a < gs.length ∧ b < gs.length ∧ idAt gs a = u ∧ idAt gs b = v ∧
      rootD (umbrellaParent gs) a = rootD (umbrellaParent gs) b := by
  obtain ⟨km, hkm, hu, hv⟩ := h
  rw [umbrella_clusters_fst gs hn, mem_buildDict_iff] at hkm
  obtain ⟨hne, hval⟩ := hkm
  rw [hval, mem_bucket_clusterKVs] at hu hv
  obtain ⟨a, ha, hida, hka⟩ := hu
  obtain ⟨b, hb, hidb, hkb⟩ := hv
  exact ⟨a, b, ha, hb, hida, hidb,
    idAt_inj gs hids (rootD_umbrellaParent_lt gs ha)
      (rootD_umbrellaParent_lt gs hb) (hka.trans hkb.symm)⟩

theorem sameCluster_perm (gs : List GaussDyn) (hn : gs.length ≠ 0)
    (hids : (gs.map (·.id)).Nodup) (σ : Equiv.Perm (Fin gs.length))
    (u v : Int) :
    sameCluster (umbrella_clusters_with_roots gs).1 u v ↔
      sameCluster (umbrella_clusters_with_roots (permList gs σ)).1 u v := by
  have hn' : (permList gs σ).length ≠ 0 := by
    rw [permList_length]; exact hn
  have hids' := nodup_ids_perm gs σ hids
  obtain ⟨_, _, hiff⟩ := umbrellaParent_spec gs
  obtain ⟨_, _, hiff'⟩ := umbrellaParent_spec (permList gs σ)
  constructor
  · intro h
    obtain ⟨a, b, ha, hb, hu, hv, hroot⟩ := sameCluster_decomp gs hn hids h
    have hcr : CRel (umbrellaEdge gs) a b := (hiff a b ha hb).mp hroot
    have hcr' := CRel_perm_backward gs σ hcr
    have hainv : permNat σ.symm a < (permList gs σ).length := by
      rw [permList_length]; exact permNat_lt σ.symm ha
    have hbinv : permNat σ.symm b < (permList gs σ).length := by
      rw [permList_length]; exact permNat_lt σ.symm hb
    have hroots' := (hiff' _ _ hainv hbinv).mpr hcr'
    have hsc := (sameCluster_iff_rootD (permList gs σ) hn' hids'
      hainv hbinv).mpr hroots'
    rwa [idAt_perm gs σ (by rw [permList_length] at hainv; exact hainv),
      permNat_inv', hu,
      idAt_perm gs σ (by rw [permList_length] at hbinv; exact hbinv),
      permNat_inv', hv] at hsc
  · intro h
    obtain ⟨k, l, hk, hl, hu, hv, hroot⟩ :=
      sameCluster_decomp (permList gs σ) hn' hids' h
    rw [permList_length] at hk hl
    have hcr' : CRel (umbrellaEdge (permList gs σ)) k l :=
      (hiff' k l (by rw [permList_length]; exact hk)
        (by rw [permList_length]; exact hl)).mp hroot
    have hcr := CRel_perm_forward gs σ hcr'
    have hroots := (hiff _ _ (permNat_lt σ hk) (permNat_lt σ hl)).mpr hcr
    have hsc := (sameCluster_iff_rootD gs hn hids
      (permNat_lt σ hk) (permNat_lt σ hl)).mpr hroots
    rwa [← idAt_perm gs σ hk, hu, ← idAt_perm gs σ hl, hv] at hsc

theorem mem_cluster_iff_sameCluster (gs : List GaussDyn)
    (hn : gs.length ≠ 0) (hids : (gs.map (·.id)).Nodup)
    {km : Int × List Int} (hkm : km ∈ (umbrella_clusters_with_roots gs).1)
    {u : Int} (hu : u ∈ km.2) (z : Int) :
    z ∈ km.2 ↔ sameCluster (umbrella_clusters_with_roots gs).1 u z := by
  constructor
  · intro hz
    exact ⟨km, hkm, hu, hz⟩
  · rintro ⟨km2, hkm2, hu2, hz⟩
    have : km = km2 := clusters_disjoint gs hn hids km km2 hkm hkm2 u hu hu2
    rw [this]
    exact hz

theorem exists_cluster_of_mem_ids (gs : List GaussDyn) (hn : gs.length ≠ 0)
    {u : Int} (hu : u ∈ gs.map (·.id)) :
    ∃ km ∈ (umbrella_clusters_with_roots gs).1, u ∈ km.2 := by
  have hperm := clusters_join_perm gs hn
  have hmem : u ∈ (((umbrella_clusters_with_roots gs).1.map (·.2)).flatten) :=
    hperm.mem_iff.mpr hu
  rw [List.mem_flatten] at hmem
  obtain ⟨ms, hms, hu'⟩ := hmem
  rw [List.mem_map] at hms
  obtain ⟨km, hkm, rfl⟩ := hms
  exact ⟨km, hkm, hu'⟩

/-- C6: clustering a permutation of the source list yields the same
partition of source ids — every cluster's member set of one run equals
some cluster's member set of the other run, in both directions — even
though the root labels may differ. -/
theorem claim_C6_partition_permutation_invariant (gs : List GaussDyn)
    (hids : (gs.map (·.id)).Nodup) (σ : Equiv.Perm (Fin gs.length)) :
    (∀ km ∈ (umbrella_clusters_with_roots gs).1,
      ∃ km' ∈ (umbrella_clusters_with_roots (permList gs σ)).1,
        ∀ z, z ∈ km.2 ↔ z ∈ km'.2) ∧
    (∀ km' ∈ (umbrella_clusters_with_roots (permList gs σ)).1,
      ∃ km ∈ (umbrella_clusters_with_roots gs).1,
        ∀ z, z ∈ km'.2 ↔ z ∈ km.2) := by
  by_cases hn : gs.length = 0
  · have hgs : gs = [] := List.length_eq_zero.mp hn
    subst hgs
    have hgs' : permList [] σ = [] := by
      have hpl := permList_length [] σ
      exact List.length_eq_zero.mp (by rw [hpl]; rfl)
    rw [hgs']
    have hempty : umbrella_clusters_with_roots [] = ([], []) := by
      simp [umbrella_clusters_with_roots]
    rw [hempty]
    exact ⟨fun km hkm => absurd hkm (List.not_mem_nil km),
      fun km hkm => absurd hkm (List.not_mem_nil km)⟩
  · have hn' : (permList gs σ).length ≠ 0 := by
      rw [permList_length]; exact hn
    have hids' := nodup_ids_perm gs σ hids
    constructor
    · intro km hkm
      have hkey := clusters_key_mem gs hn km hkm
      have hids_mem : km.1 ∈ gs.map (·.id) := by
        have hfl : km.1 ∈
            (((umbrella_clusters_with_roots gs).1.map (·.2)).flatten) := by
          rw [List.mem_flatten]
          exact ⟨km.2, List.mem_map.mpr ⟨km, hkm, rfl⟩, hkey⟩
        exact (clusters_join_perm gs hn).mem_iff.mp hfl
      have hids_mem' : km.1 ∈ (permList gs σ).map (·.id) :=
        (mem_ids_perm gs σ km.1).mp hids_mem
      obtain ⟨km', hkm', hu⟩ :=
        exists_cluster_of_mem_ids (permList gs σ) hn' hids_mem'
      refine ⟨km', hkm', fun z => ?_⟩
      rw [mem_cluster_iff_sameCluster gs hn hids hkm hkey z,
        mem_cluster_iff_sameCluster (permList gs σ) hn' hids' hkm' hu z]
      exact sameCluster_perm gs hn hids σ km.1 z
    · intro km' hkm'
      have hkey' := clusters_key_mem (permList gs σ) hn' km' hkm'
      have hids_mem' : km'.1 ∈ (permList gs σ).map (·.id) := by
        have hfl : km'.1 ∈
            (((umbrella_clusters_with_roots (permList gs σ)).1.map
              (·.2)).flatten) := by
          rw [List.mem_flatten]
          exact ⟨km'.2, List.mem_map.mpr ⟨km', hkm', rfl⟩, hkey'⟩
        exact (clusters_join_perm (permList gs σ) hn').mem_iff.mp hfl
      have hids_mem : km'.1 ∈ gs.map (·.id) :=
        (mem_ids_perm gs σ km'.1).mpr hids_mem'
      obtain ⟨km, hkm, hu⟩ := exists_cluster_of_mem_ids gs hn hids_mem
      refine ⟨km, hkm, fun z => ?_⟩
      rw [mem_cluster_iff_sameCluster (permList gs σ) hn' hids' hkm' hkey' z,
        mem_cluster_iff_sameCluster gs hn hids hkm hu z]
      exact (sameCluster_perm gs hn hids σ km'.1 z).symm

/-- Witness for C6: the two-source scene under the transposition of its
two indices. -/
theorem claim_C6_witness :
    (∀ km ∈ (umbrella_clusters_with_roots gsC1).1,
      ∃ km' ∈ (umbrella_clusters_with_roots
          (permList gsC1 (Equiv.swap (⟨0, by decide⟩ : Fin gsC1.length) ⟨1, by decide⟩))).1,
        ∀ z, z ∈ km.2 ↔ z ∈ km'.2) ∧
    (∀ km' ∈ (umbrella_clusters_with_roots
        (permList gsC1 (Equiv.swap (⟨0, by decide⟩ : Fin gsC1.length) ⟨1, by decide⟩))).1,
      ∃ km ∈ (umbrella_clusters_with_roots gsC1).1,
        ∀ z, z ∈ km'.2 ↔ z ∈ km.2) :=
  claim_C6_partition_permutation_invariant gsC1 (by decide) (Equiv.swap (⟨0, by decide⟩ : Fin gsC1.length) ⟨1, by decide⟩)

theorem mkMerge_ne_mkBirth (t t' r r' : Int) (srcs : List Int) :
    mkMerge t r srcs ≠ mkBirth t' r' := by
  intro h
  have := congrArg Event.type h
  cases this

/-- The merge event for column `j` is emitted exactly when more than
one row contributes to column `j`. -/
theorem mergeEvent_mem_iff (M : List (List Nat))
    (prev_roots curr_roots : List Int) (t : Int) {j : Nat}
    (hj : j < curr_roots.length) :
    mkMerge t (curr_roots.getD j 0) (contribIds M prev_roots j) ∈
        (detect_events_from_correspondence_matrix
          M prev_roots curr_roots t).1 ↔
      1 < (contribRows M j).length := by
  constructor
  · intro h
    simp only [detect_events_from_correspondence_matrix,
      List.mem_append] at h
    rcases h with h | h
    · rw [List.mem_map] at h
      obtain ⟨r, _, heq⟩ := h
      exact absurd heq.symm (mkMerge_ne_mkBirth t t (curr_roots.getD j 0) r
        (contribIds M prev_roots j))
    · rw [List.mem_filterMap] at h
      obtain ⟨j', _, heq⟩ := h
      by_cases hcond : 1 < (contribRows M j').length
      · rw [if_pos hcond] at heq
        have heq' := Option.some.inj heq
        have hsrcs := congrArg Event.sources heq'
        simp only [mkMerge] at hsrcs
        have hsame : contribIds M prev_roots j' = contribIds M prev_roots j :=
          Option.some.inj hsrcs
        have hlen : (contribRows M j').length = (contribRows M j).length := by
          have h1 := congrArg List.length hsame
          simpa [contribIds] using h1
        rwa [hlen] at hcond
      · rw [if_neg hcond] at heq
        cases heq
  · intro h
    simp only [detect_events_from_correspondence_matrix, List.mem_append]
    refine Or.inr ?_
    rw [List.mem_filterMap]
    exact ⟨j, List.mem_range.mpr hj, by rw [if_pos h]⟩

/-- Matrix semantics: an entry of the correspondence matrix is 1
exactly when the corresponding member sets intersect. -/
theorem correspondence_entry_iff (prev curr : List (Int × List Int))
    {i j : Nat} (hi : i < prev.length) (hj : j < curr.length) :
    Mget (correspondence_matrix_with_roots prev curr).1 i j = 1 ↔
      ∃ x, x ∈ (prev.getD i (0, [])).2 ∧ x ∈ (curr.getD j (0, [])).2 := by
  have hrow : (correspondence_matrix_with_roots prev curr).1.getD i [] =
      curr.map (fun ce =>
        if (prev[i]).2.any (fun x => ce.2.contains x) then 1 else 0) := by
    show ((prev.map _).getD i []) = _
    rw [List.getD_eq_getElem?_getD,
      List.getElem?_eq_getElem (by simpa using hi)]
    simp only [Option.getD_some, List.getElem_map]
  have hentry : Mget (correspondence_matrix_with_roots prev curr).1 i j =
      (if (prev[i]).2.any (fun x => (curr[j]).2.contains x)
        then 1 else 0) := by
    unfold Mget
    rw [hrow, List.getD_eq_getElem?_getD,
      List.getElem?_eq_getElem (by simpa using hj)]
    simp only [Option.getD_some, List.getElem_map]
  have hgetp : prev.getD i (0, []) = prev[i] := by
    rw [List.getD_eq_getElem?_getD, List.getElem?_eq_getElem hi]
    rfl
  have hgetc : curr.getD j (0, []) = curr[j] := by
    rw [List.getD_eq_getElem?_getD, List.getElem?_eq_getElem hj]
    rfl
  rw [hentry, hgetp, hgetc]
  by_cases hcase : (prev[i]).2.any (fun x => (curr[j]).2.contains x)
  · rw [if_pos hcase]
    simp only [List.any_eq_true, List.elem_iff] at hcase
    obtain ⟨x, h1, h2⟩ := hcase
    exact iff_of_true rfl ⟨x, h1, h2⟩
  · rw [if_neg hcase]
    simp only [List.any_eq_true, List.elem_iff] at hcase
    constructor
    · intro h
      cases h
    · rintro ⟨x, h1, h2⟩
      exact absurd ⟨x, h1, h2⟩ hcase

/-- C2: for every pair of clusterings and every current-root column
`j`, the tracker emits the merge event (whose `sources` are all
contributing previous root ids and whose `target` is current root `j`,
stored by the code as the singleton list `[j]`) exactly when more than
one previous root overlaps column `j`; and on the spec's concrete
scenario — previous `{1: [1,2], 3: [3]}`, current `{1: [1,2,3]}` — the
output is exactly one merge event with sources `[1, 3]` and target `1`,
and zero birth events. -/
theorem claim_C2_merge_events :
    (∀ (prev curr : List (Int × List Int)) (t : Int) (j : Nat),
      j < curr.length →
      (mkMerge t
          ((correspondence_matrix_with_roots prev curr).2.2.getD j 0)
          (contribIds (correspondence_matrix_with_roots prev curr).1
            (correspondence_matrix_with_roots prev curr).2.1 j) ∈
        (detect_events_from_correspondence_matrix
          (correspondence_matrix_with_roots prev curr).1
          (correspondence_matrix_with_roots prev curr).2.1
          (correspondence_matrix_with_roots prev curr).2.2 t).1 ↔
        1 < (contribRows
          (correspondence_matrix_with_roots prev curr).1 j).length)) ∧
    (∀ t : Int,
      detect_events_from_correspondence_matrix
        (correspondence_matrix_with_roots
          [(1, [1, 2]), (3, [3])] [(1, [1, 2, 3])]).1
        (correspondence_matrix_with_roots
          [(1, [1, 2]), (3, [3])] [(1, [1, 2, 3])]).2.1
        (correspondence_matrix_with_roots
          [(1, [1, 2]), (3, [3])] [(1, [1, 2, 3])]).2.2 t =
      ([mkMerge t 1 [1, 3]], [])) := by
  constructor
  · intro prev curr t j hj
    apply mergeEvent_mem_iff
    show j < (curr.map (·.1)).length
    rw [List.length_map]
    exact hj
  · intro t
    rfl

/-- Witness for C2: the merge-emission criterion instantiated on the
spec's scenario at column 0. -/
theorem claim_C2_witness :
    mkMerge 0
        ((correspondence_matrix_with_roots
          [(1, [1, 2]), (3, [3])] [(1, [1, 2, 3])]).2.2.getD 0 0)
        (contribIds (correspondence_matrix_with_roots
            [(1, [1, 2]), (3, [3])] [(1, [1, 2, 3])]).1
          (correspondence_matrix_with_roots
            [(1, [1, 2]), (3, [3])] [(1, [1, 2, 3])]).2.1 0) ∈
      (detect_events_from_correspondence_matrix
        (correspondence_matrix_with_roots
          [(1, [1, 2]), (3, [3])] [(1, [1, 2, 3])]).1
        (correspondence_matrix_with_roots
          [(1, [1, 2]), (3, [3])] [(1, [1, 2, 3])]).2.1
        (correspondence_matrix_with_roots
          [(1, [1, 2]), (3, [3])] [(1, [1, 2, 3])]).2.2 0).1 ↔
    1 < (contribRows (correspondence_matrix_with_roots
      [(1, [1, 2]), (3, [3])] [(1, [1, 2, 3])]).1 0).length :=
  claim_C2_merge_events.1 [(1, [1, 2]), (3, [3])] [(1, [1, 2, 3])] 0 0
    (by decide)

theorem foldl_max_map (l : List Gaussian) (f : Gaussian → ℝ) (a : ℝ) :
    l.foldl (fun v g => max v (f g)) a = (l.map f).foldl max a := by
  induction l generalizing a with
  | nil => rfl
  | cons g gs ih => exact ih (max a (f g))

theorem foldl_max_init (xs : List ℝ) :
    ∀ a b : ℝ, xs.foldl max (max a b) = max a (xs.foldl max b) := by
  induction xs with
  | nil => intro a b; rfl
  | cons c xs ih =>
    intro a b
    show xs.foldl max (max (max a b) c) = max a (xs.foldl max (max b c))
    rw [max_assoc, ih]

/-- C4 amended: on a non-empty source list the sampled cell value is
the maximum of `0` and the maximum kernel contribution across sources
(the fold is seeded with `val = 0.0`, so an all-negative cell clamps to
zero instead of realizing the negative maximum). -/
theorem claim_C4_amended (s : Scene) (dist_fn : ℝ → ℝ → Gaussian → ℝ)
    (i j : Nat) (h : s.gaussians ≠ []) :
    generate_cell s dist_fn i j = max 0 (maxOverSources s dist_fn i j) := by
  simp only [generate_cell, maxOverSources]
  rw [foldl_max_map]
  have hne : s.gaussians.map
      (fun g => dist_fn ((i : ℝ) * (s.spacing / 2))
        ((j : ℝ) * (s.spacing / 2)) g) ≠ [] := by
    simpa using h
  cases hl : s.gaussians.map
      (fun g => dist_fn ((i : ℝ) * (s.spacing / 2))
        ((j : ℝ) * (s.spacing / 2)) g) with
  | nil => exact absurd hl hne
  | cons c cs =>
    show (c :: cs).foldl max 0 = max 0 (listMaxD (c :: cs))
    have h1 : (c :: cs).foldl max 0 = cs.foldl max (max 0 c) := rfl
    have h2 : listMaxD (c :: cs) = cs.foldl max c := by
      show (c :: cs).foldl max ((c :: cs).headD 0) = cs.foldl max c
      show cs.foldl max (max c c) = cs.foldl max c
      rw [max_self]
    rw [h1, h2, foldl_max_init]

theorem sC4_kernel_value :
    f_mexican_hat (((1 : Nat) : ℝ) * (sC4.spacing / 2))
      (((1 : Nat) : ℝ) * (sC4.spacing / 2)) ⟨1, 0, 0, 1, 1, 1, 1, 1, 1, 1⟩ =
    -Real.exp (-1) := by
  show f_mexican_hat (((1 : Nat) : ℝ) * ((2 : ℝ) / 2))
    (((1 : Nat) : ℝ) * ((2 : ℝ) / 2)) ⟨1, 0, 0, 1, 1, 1, 1, 1, 1, 1⟩ = _
  simp only [f_mexican_hat]
  norm_num

/-- C4 counterexample: for the Mexican-hat kernel the sampled cell
value is `0`, not the (negative) maximum across sources `-exp(-1)` —
the claim's pure maximum-reduction is falsified at this input. -/
theorem claim_C4_counterexample :
    generate_cell sC4 f_mexican_hat 1 1 ≠ maxOverSources sC4 f_mexican_hat 1 1 := by
  have hcell : generate_cell sC4 f_mexican_hat 1 1 = 0 := by
    simp only [generate_cell, sC4]
    show max 0 (f_mexican_hat (((1 : Nat) : ℝ) * ((2 : ℝ) / 2))
      (((1 : Nat) : ℝ) * ((2 : ℝ) / 2)) ⟨1, 0, 0, 1, 1, 1, 1, 1, 1, 1⟩) = 0
    rw [show f_mexican_hat (((1 : Nat) : ℝ) * ((2 : ℝ) / 2))
      (((1 : Nat) : ℝ) * ((2 : ℝ) / 2)) ⟨1, 0, 0, 1, 1, 1, 1, 1, 1, 1⟩ =
      -Real.exp (-1) from sC4_kernel_value]
    exact max_eq_left (by
      have := Real.exp_pos (-1 : ℝ)
      linarith)
  have hmax : maxOverSources sC4 f_mexican_hat 1 1 = -Real.exp (-1) := by
    simp only [maxOverSources, sC4, List.map, listMaxD, List.headD,
      List.foldl]
    rw [show f_mexican_hat (((1 : Nat) : ℝ) * ((2 : ℝ) / 2))
      (((1 : Nat) : ℝ) * ((2 : ℝ) / 2)) ⟨1, 0, 0, 1, 1, 1, 1, 1, 1, 1⟩ =
      -Real.exp (-1) from sC4_kernel_value]
    exact max_self _
  rw [hcell, hmax]
  have := Real.exp_pos (-1 : ℝ)
  intro h
  linarith

/-- Witness for the amended C4 on a concrete non-empty scene. -/
theorem claim_C4_witness :
    sC4.gaussians ≠ [] ∧
    generate_cell sC4 f_gaussian 0 0 =
      max 0 (maxOverSources sC4 f_gaussian 0 0) :=
  ⟨by simp [sC4], claim_C4_amended sC4 f_gaussian 0 0 (by simp [sC4])⟩

/-- C7 amended: with the position omitted, `add_gaussian` appends a
record carrying the next sequential id, increments the id counter, and
places the source within 20-80% of each axis of the grid bounds — but
the Python function returns `None`, not the new id. -/
theorem claim_C7_amended (s : Scene) (amplitude variance rx ry : ℝ)
    (hv : 0 ≤ variance) (hrx1 : 0.2 ≤ rx) (hrx2 : rx ≤ 0.8)
    (hry1 : 0.2 ≤ ry) (hry2 : ry ≤ 0.8) (hsp : 0 ≤ s.spacing) :
    ∃ g : Gaussian,
      add_gaussian s none none rx ry amplitude variance =
        Except.ok ({ s with
          gaussians := s.gaussians ++ [g],
          next_id := s.next_id + 1 }, none) ∧
      g.id = s.next_id ∧
      0.2 * ((s.width : ℝ) * s.spacing) ≤ g.x ∧
      g.x ≤ 0.8 * ((s.width : ℝ) * s.spacing) ∧
      0.2 * ((s.height : ℝ) * s.spacing) ≤ g.y ∧
      g.y ≤ 0.8 * ((s.height : ℝ) * s.spacing) := by
  have hwsp : (0 : ℝ) ≤ (s.width : ℝ) * s.spacing :=
    mul_nonneg (Nat.cast_nonneg _) hsp
  have hhsp : (0 : ℝ) ≤ (s.height : ℝ) * s.spacing :=
    mul_nonneg (Nat.cast_nonneg _) hsp
  refine ⟨⟨s.next_id, rx * (s.width : ℝ) * s.spacing,
    ry * (s.height : ℝ) * s.spacing, amplitude, variance,
    Real.sqrt variance, Real.sqrt (variance / 10), 40.0, variance,
    Real.sqrt variance⟩, ?_, rfl, ?_, ?_, ?_, ?_⟩
  · simp only [add_gaussian]
    rw [if_neg (not_lt.mpr hv)]
    rfl
  · show 0.2 * ((s.width : ℝ) * s.spacing) ≤ rx * (s.width : ℝ) * s.spacing
    rw [mul_assoc]
    exact mul_le_mul_of_nonneg_right hrx1 hwsp
  · show rx * (s.width : ℝ) * s.spacing ≤ 0.8 * ((s.width : ℝ) * s.spacing)
    rw [mul_assoc]
    exact mul_le_mul_of_nonneg_right hrx2 hwsp
  · show 0.2 * ((s.height : ℝ) * s.spacing) ≤
      ry * (s.height : ℝ) * s.spacing
    rw [mul_assoc]
    exact mul_le_mul_of_nonneg_right hry1 hhsp
  · show ry * (s.height : ℝ) * s.spacing ≤
      0.8 * ((s.height : ℝ) * s.spacing)
    rw [mul_assoc]
    exact mul_le_mul_of_nonneg_right hry2 hhsp

/-- C7 counterexample: on a fresh scene the call succeeds (no
exception) and its return value is `None`, not the newly allocated
id 1 — "returns the new id" is falsified. -/
theorem claim_C7_counterexample :
    addGaussianRaises (add_gaussian sC7 none none (1/2) (1/2) 1 100)
        = false ∧
    addGaussianRet (add_gaussian sC7 none none (1/2) (1/2) 1 100)
        = none ∧
    sC7.next_id = 1 := by
  have hp : add_gaussian sC7 none none (1/2) (1/2) 1 100 =
      Except.ok ({ sC7 with
        gaussians := sC7.gaussians ++
          [⟨sC7.next_id, (1/2) * (sC7.width : ℝ) * sC7.spacing,
            (1/2) * (sC7.height : ℝ) * sC7.spacing, 1, 100,
            Real.sqrt 100, Real.sqrt (100 / 10), 40.0, 100,
            Real.sqrt 100⟩],
        next_id := sC7.next_id + 1 }, none) := by
    simp only [add_gaussian]
    rw [if_neg (by norm_num : ¬ (100 : ℝ) < 0)]
    rfl
  exact ⟨by rw [hp]; rfl, by rw [hp]; rfl, rfl⟩

/-- Witness for the amended C7 on a fresh scene. -/
theorem claim_C7_witness :
    ∃ g : Gaussian,
      add_gaussian sC7 none none (1/2) (1/2) 1 100 =
        Except.ok ({ sC7 with
          gaussians := sC7.gaussians ++ [g],
          next_id := sC7.next_id + 1 }, none) ∧
      g.id = sC7.next_id ∧
      0.2 * ((sC7.width : ℝ) * sC7.spacing) ≤ g.x ∧
      g.x ≤ 0.8 * ((sC7.width : ℝ) * sC7.spacing) ∧
      0.2 * ((sC7.height : ℝ) * sC7.spacing) ≤ g.y ∧
      g.y ≤ 0.8 * ((sC7.height : ℝ) * sC7.spacing) :=
  claim_C7_amended sC7 1 100 (1/2) (1/2) (by norm_num) (by norm_num)
    (by norm_num) (by norm_num) (by norm_num)
    (by show (0 : ℝ) ≤ (1 : ℝ); norm_num)

/-- C8 amended: a strictly negative variance makes source creation fail
immediately (the `math.sqrt` domain error), while a zero variance is
accepted at creation time — the division-by-zero failure only occurs
later, at kernel evaluation. -/
theorem claim_C8_amended (s : Scene) (x? y? : Option ℝ)
    (rx ry amplitude variance : ℝ) :
    (variance < 0 →
      add_gaussian s x? y? rx ry amplitude variance =
        Except.error "math domain error") ∧
    (0 ≤ variance →
      addGaussianRaises (add_gaussian s x? y? rx ry amplitude variance)
        = false) := by
  constructor
  · intro hv
    simp only [add_gaussian]
    rw [if_pos hv]
  · intro hv
    simp only [add_gaussian]
    rw [if_neg (not_lt.mpr hv)]
    rfl

/-- C8 counterexample: creating a source with variance `0` does not
raise at creation time, falsifying "zero or negative variance fails at
source-creation time". -/
theorem claim_C8_counterexample :
    addGaussianRaises (add_gaussian sC7 none none 0 0 1 0) = false := by
  simp only [add_gaussian]
  rw [if_neg (by norm_num : ¬ (0 : ℝ) < 0)]
  rfl

/-- Witness for the amended C8 at variances `-1` and `0`. -/
theorem claim_C8_witness :
    add_gaussian sC7 none none 0 0 1 (-1) =
        Except.error "math domain error" ∧
    addGaussianRaises (add_gaussian sC7 none none 0 0 1 0) = false :=
  ⟨(claim_C8_amended sC7 none none 0 0 1 (-1)).1 (by norm_num),
   (claim_C8_amended sC7 none none 0 0 1 0).2 (by norm_num)⟩

/-- C3 amended: a persistence failure is caught by the caller and the
tick completes, but the GUI state — including `_prev_clusters` — is
left entirely unchanged: the clustering computed during the failing
tick is *not* stored; only a successful persistence stores it. -/
theorem claim_C3_amended (st : GuiState) (e : String) :
    updateTimerTick st (Except.error e) = st ∧
    (updateTimerTick st (Except.ok ())).scene.prev_clusters =
      some (umbrella_clusters_with_roots
        (st.scene.gaussians.map gcopy)).1 ∧
    (updateTimerTick st (Except.ok ())).tracking_timestep =
      st.tracking_timestep + 1 :=
  ⟨rfl, rfl, rfl⟩

/-- C3 counterexample: when persisting the snapshot fails, the
clustering `{1: [1]}` just computed during the tick is *not* stored as
the previous clustering — `_prev_clusters` is still `None` afterwards. -/
theorem claim_C3_counterexample :
    (updateTimerTick stC3 (Except.error "disk full")).scene.prev_clusters
        = none ∧
    (umbrella_clusters_with_roots (stC3.scene.gaussians.map gcopy)).1
        = [(1, [1])] ∧
    (updateTimerTick stC3 (Except.error "disk full")).scene.prev_clusters
        ≠ some (umbrella_clusters_with_roots
          (stC3.scene.gaussians.map gcopy)).1 :=
  ⟨rfl, rfl, fun h => Option.noConfusion h⟩

theorem moveOne_no_path (paths : Int → Option (List (ℝ × ℝ)))
    (pidx : Int → Nat) (speed : ℝ) (g : Gaussian)
    (h : paths g.id = none ∨ paths g.id = some []) :
    moveOneByPath paths pidx speed g = (g, pidx) := by
  rcases h with h | h
  · simp only [moveOneByPath, h]
  · simp only [moveOneByPath, h]
    rw [if_neg (by simp)]

theorem moveOne_single_close (paths : Int → Option (List (ℝ × ℝ)))
    (pidx : Int → Nat) (speed : ℝ) (g : Gaussian) (tx ty : ℝ)
    (hpath : paths g.id = some [(tx, ty)]) (hidx : pidx g.id = 0)
    (hdist : Real.sqrt ((tx - g.x) * (tx - g.x) +
      (ty - g.y) * (ty - g.y)) < 0.5) :
    moveOneByPath paths pidx speed g =
      (g, Function.update pidx g.id 0) := by
  simp only [moveOneByPath, hpath]
  rw [if_pos (by simp), hidx]
  simp only [List.getD_cons_zero]
  rw [if_pos hdist, if_pos (by simp)]

theorem moveOne_pidx_preserve (paths : Int → Option (List (ℝ × ℝ)))
    (pidx : Int → Nat) (speed : ℝ) (h : Gaussian) (gid : Int)
    (w : ℝ × ℝ) (hpath : paths gid = some [w])
    (hidx : pidx gid = 0) :
    (moveOneByPath paths pidx speed h).2 gid = 0 := by
  by_cases hid : h.id = gid
  · subst hid
    simp only [moveOneByPath, hpath]
    rw [if_pos (by simp)]
    split
    · simp [Function.update_apply, hidx]
    · exact hidx
  · cases hp : paths h.id with
    | none => simp only [moveOneByPath, hp]; exact hidx
    | some wps =>
      simp only [moveOneByPath, hp]
      by_cases hlen : 0 < wps.length
      · rw [if_pos hlen]
        split
        · simp [Function.update_apply, Ne.symm hid, hidx]
        · exact hidx
      · rw [if_neg hlen]; exact hidx

theorem moveLoop_no_path (paths : Int → Option (List (ℝ × ℝ)))
    (speed : ℝ) (l : List Gaussian) :
    ∀ (pidx : Int → Nat) (k : Nat),
      (paths ((l.getD k default).id) = none ∨
       paths ((l.getD k default).id) = some []) →
      (moveLoop paths speed l pidx).1.getD k default =
        l.getD k default := by
  induction l with
  | nil => intro pidx k _h; rfl
  | cons g rest ih =>
    intro pidx k h
    cases k with
    | zero =>
      simp only [List.getD_cons_zero] at h ⊢
      simp only [moveLoop]
      rw [List.getD_cons_zero, moveOne_no_path paths pidx speed g h]
    | succ k =>
      simp only [List.getD_cons_succ] at h ⊢
      simp only [moveLoop]
      rw [List.getD_cons_succ]
      exact ih _ k h

theorem moveLoop_single_close (paths : Int → Option (List (ℝ × ℝ)))
    (speed : ℝ) (tx ty : ℝ) (l : List Gaussian) :
    ∀ (pidx : Int → Nat) (k : Nat),
      paths ((l.getD k default).id) = some [(tx, ty)] →
      pidx ((l.getD k default).id) = 0 →
      Real.sqrt ((tx - (l.getD k default).x) *
          (tx - (l.getD k default).x) +
        (ty - (l.getD k default).y) * (ty - (l.getD k default).y))
          < 0.5 →
      (moveLoop paths speed l pidx).1.getD k default =
        l.getD k default := by
  induction l with
  | nil => intro pidx k _ _ _; rfl
  | cons g rest ih =>
    intro pidx k hpath hidx hdist
    cases k with
    | zero =>
      simp only [List.getD_cons_zero] at hpath hidx hdist ⊢
      simp only [moveLoop]
      rw [List.getD_cons_zero,
        moveOne_single_close paths pidx speed g tx ty hpath hidx hdist]
    | succ k =>
      simp only [List.getD_cons_succ] at hpath hidx hdist ⊢
      simp only [moveLoop]
      rw [List.getD_cons_succ]
      exact ih _ k hpath
        (moveOne_pidx_preserve paths pidx speed g _ _ hpath hidx) hdist

/-- C9 amended: one advection tick leaves a source untouched when its
path entry is absent or empty, and raises no error; with a
single-waypoint path (and the cursor at the dict default 0) the source
is untouched only when it is already within 0.5 world units of the
waypoint — otherwise the tick moves it toward the waypoint (see the
counterexample). -/
theorem claim_C9_amended (s : Scene) (k : Nat) :
    ((s.paths ((s.gaussians.getD k default).id) = none ∨
      s.paths ((s.gaussians.getD k default).id) = some []) →
      (move_gaussians_by_custom_path s).gaussians.getD k default =
        s.gaussians.getD k default) ∧
    (∀ tx ty : ℝ,
      s.paths ((s.gaussians.getD k default).id) = some [(tx, ty)] →
      s.path_index ((s.gaussians.getD k default).id) = 0 →
      Real.sqrt ((tx - (s.gaussians.getD k default).x) *
          (tx - (s.gaussians.getD k default).x) +
        (ty - (s.gaussians.getD k default).y) *
          (ty - (s.gaussians.getD k default).y)) < 0.5 →
      (move_gaussians_by_custom_path s).gaussians.getD k default =
        s.gaussians.getD k default) :=
  ⟨fun h =>
    moveLoop_no_path s.paths s.path_speed s.gaussians s.path_index k h,
   fun tx ty hpath hidx hdist =>
    moveLoop_single_close s.paths s.path_speed tx ty s.gaussians
      s.path_index k hpath hidx hdist⟩

/-- C9 counterexample: a source at the origin whose path holds the
single waypoint (10, 0) is NOT left in place by one advection tick —
its x coordinate moves from 0 to path_speed = 1/2 — refuting the
claim that a single-waypoint path is always a no-op. -/
theorem claim_C9_counterexample :
    sC9.paths ((sC9.gaussians.getD 0 default).id) =
      some [((10 : ℝ), (0 : ℝ))] ∧
    (sC9.gaussians.getD 0 default).x = 0 ∧
    ((move_gaussians_by_custom_path sC9).gaussians.getD 0 default).x
      = 1 / 2 := by
  refine ⟨by rw [show sC9.paths ((sC9.gaussians.getD 0 default).id) =
      (if (7 : Int) = 7 then some [((10:ℝ), (0:ℝ))] else none)
      from rfl, if_pos rfl], rfl, ?_⟩
  have h10 : Real.sqrt (((10:ℝ) - 0) * (10 - 0) + ((0:ℝ) - 0) * (0 - 0))
      = 10 := by
    rw [show ((10:ℝ) - 0) * (10 - 0) + ((0:ℝ) - 0) * (0 - 0) = 10 ^ 2
      by norm_num]
    exact Real.sqrt_sq (by norm_num)
  show ((moveOneByPath sC9.paths sC9.path_index sC9.path_speed
      ⟨7, 0, 0, 1, 1, 1, 1, 1, 1, 1⟩).1).x = 1 / 2
  have hp : sC9.paths ((⟨7, 0, 0, 1, 1, 1, 1, 1, 1, 1⟩ : Gaussian).id)
      = some [((10 : ℝ), (0 : ℝ))] := by
    show (if (7 : Int) = 7 then some [((10:ℝ), (0:ℝ))] else none) = _
    rw [if_pos rfl]
  have hpi : sC9.path_index
      ((⟨7, 0, 0, 1, 1, 1, 1, 1, 1, 1⟩ : Gaussian).id) = 0 := rfl
  simp only [moveOneByPath, hp]
  rw [if_pos (by norm_num : 0 < [((10:ℝ), (0:ℝ))].length), hpi]
  simp only [List.getD_cons_zero]
  rw [h10, if_neg (by norm_num : ¬ (10:ℝ) < 0.5)]
  show (0:ℝ) + sC9.path_speed * ((10:ℝ) - 0) / 10 = 1 / 2
  show (0:ℝ) + (1/2) * ((10:ℝ) - 0) / 10 = 1 / 2
  norm_num

/-- C9 witness: a scene whose only source has no path entry is
untouched by one advection tick. -/
theorem claim_C9_witness :
    (move_gaussians_by_custom_path sC9w).gaussians.getD 0 default =
      sC9w.gaussians.getD 0 default :=
  (claim_C9_amended sC9w 0).1 (Or.inl rfl)

theorem npClip_le (v lo hi : ℝ) : npClip v lo hi ≤ hi :=
  min_le_right _ _

theorem le_npClip (v lo hi : ℝ) (h : lo ≤ hi) : lo ≤ npClip v lo hi :=
  le_min (le_trans (le_max_right v lo) (le_refl _)) h

/-- C5: for every noise kind and every input field, every value of the
output field lies in the input field's exact value range
`[min(input), max(input)]` (the clip at line 140 enforces it whatever
the noise transform produced, and the `'None'` kind returns the field
unchanged); consequently `min(output) ≥ min(input)` and
`max(output) ≤ max(input)`, which implies the claimed ε-tolerance
bounds for every ε ≥ 0. -/
theorem claim_C5_range_preservation (noiseFn : List ℝ → List ℝ)
    (noise_type : String) (field : List ℝ) :
    (∀ v ∈ apply_noise_to_scalar_field noiseFn noise_type field,
      listMinD field ≤ v ∧ v ≤ listMaxD field) ∧
    (apply_noise_to_scalar_field noiseFn noise_type field ≠ [] →
      listMinD field ≤
        listMinD (apply_noise_to_scalar_field noiseFn noise_type field) ∧
      listMaxD (apply_noise_to_scalar_field noiseFn noise_type field) ≤
        listMaxD field) := by
  have key : ∀ v ∈ apply_noise_to_scalar_field noiseFn noise_type field,
      listMinD field ≤ v ∧ v ≤ listMaxD field := by
    intro v hv
    simp only [apply_noise_to_scalar_field] at hv
    by_cases hN : noise_type = "None"
    · rw [if_pos hN] at hv
      exact ⟨listMinD_le hv, le_listMaxD hv⟩
    · rw [if_neg hN] at hv
      obtain ⟨u, _hu, rfl⟩ := List.mem_map.mp hv
      have hmm : listMinD field ≤ listMaxD field := by
        rcases eq_or_ne field [] with rfl | hfe
        · simp [listMinD, listMaxD]
        · exact listMinD_le_listMaxD hfe
      exact ⟨le_npClip _ _ _ hmm, npClip_le _ _ _⟩
  refine ⟨key, fun hne => ⟨?_, ?_⟩⟩
  · exact (key _ (listMinD_mem hne)).1
  · exact (key _ (listMaxD_mem hne)).2

/-- C5 witness: the identity transform on a recognised kind with the
two-point field `[0, 1]` yields a non-empty output whose minimum and
maximum stay within `[0, 1]`. -/
theorem claim_C5_witness :
    apply_noise_to_scalar_field id "Salt" [0, 1] ≠ [] ∧
    (listMinD [0, 1] ≤
        listMinD (apply_noise_to_scalar_field id "Salt" [0, 1]) ∧
      listMaxD (apply_noise_to_scalar_field id "Salt" [0, 1]) ≤
        listMaxD [0, 1]) :=
  have hne : apply_noise_to_scalar_field id "Salt" [(0:ℝ), 1] ≠ [] := by
    simp [apply_noise_to_scalar_field]
  ⟨hne, (claim_C5_range_preservation id "Salt" [0, 1]).2 hne⟩
